import Mathlib

/-!
Shallow embedding of `src/backend/game_engine.py` (Connect-4 engine):
the board, rule functions, heuristic, alpha-beta minimax search, and the
privileged ("god mode") mutation layer, together with proofs of the
specification claims about them.

Conventions:
* a board is a total function `ℕ → ℕ → ℕ` (row, column ↦ cell value);
  the game only ever reads/writes rows 0..5 and columns 0..6, matching the
  6×7 numpy array of the source;
* cell values: 0 = EMPTY, 1 = PLAYER_PIECE, 2 = AI_PIECE;
* `XInt` models the extended reals used for alpha/beta/value
  (`-np.inf`, finite integer scores, `np.inf`);
* the Python `random.choice(valid_locations)` tie-break seed is modelled by
  an explicit parameter `ch : List ℕ → ℕ`;
* `minimax` is stateful (it threads the board, mirroring the speculative
  mutate/undo on `self.board`), and is generalized over the heuristic
  (`minimaxH`) so that "the heuristic is not evaluated on terminal nodes"
  can be stated as independence from the heuristic.
-/

namespace C4

/-- Extended integers: `-np.inf`, finite scores, `np.inf`. -/
inductive XInt where
  | negInf : XInt
  | fin : ℤ → XInt
  | posInf : XInt
  deriving DecidableEq, Repr

namespace XInt

/-- `a ≤ b` on extended integers (Boolean, mirroring Python comparisons). -/
def le : XInt → XInt → Bool
  | negInf, _ => true
  | fin _, negInf => false
  | fin a, fin b => a ≤ b
  | fin _, posInf => true
  | posInf, posInf => true
  | posInf, _ => false

/-- `a < b` on extended integers. -/
def lt (a b : XInt) : Bool := !(le b a)

/-- `max`, as Python's `max(a, b)`. -/
def max (a b : XInt) : XInt := if le a b then b else a

/-- `min`, as Python's `min(a, b)`. -/
def min (a b : XInt) : XInt := if le a b then a else b

/-- A finite extended integer. -/
def IsFin : XInt → Prop
  | fin _ => True
  | _ => False

end XInt

/-! ### Board and constants (from `game_engine.py` top of file) -/

abbrev Board := ℕ → ℕ → ℕ

def ROW_COUNT : ℕ := 6
def COLUMN_COUNT : ℕ := 7
def EMPTY : ℕ := 0
def PLAYER_PIECE : ℕ := 1
def AI_PIECE : ℕ := 2
def WINDOW_LENGTH : ℕ := 4

/-- `np.zeros((ROW_COUNT, COLUMN_COUNT))`: the all-empty board. -/
def create_board : Board := fun _ _ => EMPTY

/-- Write `piece` at cell `(row, col)` (numpy `board[row][col] = piece`). -/
def setCell (b : Board) (row col piece : ℕ) : Board :=
  fun r c => if r = row ∧ c = col then piece else b r c

/-- `drop_piece(row, col, piece)`: `self.board[row][col] = piece`. -/
def drop_piece (b : Board) (row col piece : ℕ) : Board :=
  setCell b row col piece

/-- `is_valid_location(col)`: the top row (row 0) of the column is empty. -/
def is_valid_location (b : Board) (col : ℕ) : Bool :=
  b 0 col == 0

/-- Helper for `get_next_open_row`: scan rows `r, r-1, ..., 0` for the first
empty cell (the Python loop runs `r` from `ROW_COUNT-1` down to `0`). -/
def nextOpenFrom (b : Board) (col : ℕ) : ℕ → Option ℕ
  | 0 => if b 0 col = 0 then some 0 else none
  | r + 1 => if b (r + 1) col = 0 then some (r + 1) else nextOpenFrom b col r

/-- `get_next_open_row(col)`: lowest empty row of the column, scanning from
the bottom (`ROW_COUNT-1`) upward; `none` when the column is full (the
Python function falls off the loop and returns `None`). -/
def get_next_open_row (b : Board) (col : ℕ) : Option ℕ :=
  nextOpenFrom b col (ROW_COUNT - 1)

/-- `winning_move(piece)`: four faithful scans — horizontal, vertical,
positively sloped diagonals, negatively sloped diagonals (the last loop is
`for r in range(3, ROW_COUNT)`). -/
def winning_move (b : Board) (piece : ℕ) : Bool :=
  ((List.range (COLUMN_COUNT - 3)).any fun c => (List.range ROW_COUNT).any fun r =>
    b r c == piece && b r (c+1) == piece && b r (c+2) == piece && b r (c+3) == piece) ||
  ((List.range COLUMN_COUNT).any fun c => (List.range (ROW_COUNT - 3)).any fun r =>
    b r c == piece && b (r+1) c == piece && b (r+2) c == piece && b (r+3) c == piece) ||
  ((List.range (COLUMN_COUNT - 3)).any fun c => (List.range (ROW_COUNT - 3)).any fun r =>
    b r c == piece && b (r+1) (c+1) == piece && b (r+2) (c+2) == piece && b (r+3) (c+3) == piece) ||
  ((List.range (COLUMN_COUNT - 3)).any fun c => ([3, 4, 5] : List ℕ).any fun r =>
    b r c == piece && b (r-1) (c+1) == piece && b (r-2) (c+2) == piece && b (r-3) (c+3) == piece)

/-- `evaluate_window(window, piece)`: heuristic value of one 4-cell window.
The `score` accumulator is the sum of the if/elif block and the separate
opponent-threat penalty, exactly as in the source. -/
def evaluate_window (window : List ℕ) (piece : ℕ) : ℤ :=
  let opp_piece := if piece = PLAYER_PIECE then AI_PIECE else PLAYER_PIECE
  let base : ℤ :=
    if window.count piece = 4 then 100
    else if window.count piece = 3 ∧ window.count EMPTY = 1 then 5
    else if window.count piece = 2 ∧ window.count EMPTY = 2 then 2
    else 0
  let pen : ℤ :=
    if window.count opp_piece = 3 ∧ window.count EMPTY = 1 then -4 else 0
  base + pen

/-- The 4-cell horizontal window `row_array[c:c+WINDOW_LENGTH]` of row `r`. -/
def hwin (b : Board) (r c : ℕ) : List ℕ :=
  [b r c, b r (c+1), b r (c+2), b r (c+3)]

/-- The 4-cell vertical window `col_array[r:r+WINDOW_LENGTH]` of column `c`. -/
def vwin (b : Board) (c r : ℕ) : List ℕ :=
  [b r c, b (r+1) c, b (r+2) c, b (r+3) c]

/-- `score_position(piece)`: center-column count × 3, plus the horizontal
window sums, plus the vertical window sums.  The diagonal windows are
omitted in the source ("omitted for brevity"). -/
def score_position (b : Board) (piece : ℕ) : ℤ :=
  (((List.range ROW_COUNT).map (fun r => b r (COLUMN_COUNT / 2))).count piece : ℤ) * 3 +
  ((List.range ROW_COUNT).map (fun r =>
    ((List.range (COLUMN_COUNT - 3)).map (fun c =>
      evaluate_window (hwin b r c) piece)).sum)).sum +
  ((List.range COLUMN_COUNT).map (fun c =>
    ((List.range (ROW_COUNT - 3)).map (fun r =>
      evaluate_window (vwin b c r) piece)).sum)).sum

/-- `get_valid_locations()`: columns (in order 0..6) whose top cell is empty. -/
def get_valid_locations (b : Board) : List ℕ :=
  (List.range COLUMN_COUNT).filter (fun col => is_valid_location b col)

/-- `is_terminal_node()`: someone has won, or no valid moves remain. -/
def is_terminal_node (b : Board) : Bool :=
  winning_move b PLAYER_PIECE || winning_move b AI_PIECE ||
    (get_valid_locations b).length == 0

/-! ### Minimax with alpha-beta pruning (stateful, mutate/undo threading)

`minimaxH` generalizes `minimax` over the depth-0 heuristic `h`
(the source uses `score_position(AI_PIECE)`); the `random.choice` tie-break
is the parameter `ch`.  The board is threaded explicitly: each loop
iteration snapshots the board (`b_copy = self.board.copy()`), mutates it,
recurses on the mutated board, and restores the snapshot, discarding
whatever board the recursion produced (`self.board = b_copy`). -/

/-- The maximizing-player loop of `minimax`.  Arguments after the list:
board, running `column`, running `value`, `alpha`, `beta`. -/
def maxLoop (rec : Board → XInt → XInt → XInt × Board) :
    List ℕ → Board → Option ℕ → XInt → XInt → XInt → ((Option ℕ × XInt) × Board)
  | [], b, column, value, _, _ => ((column, value), b)
  | col :: rest, b, column, value, alpha, beta =>
    let row := get_next_open_row b col
    let b_copy := b
    -- simulate move (`row` is `some` whenever `col` is a valid location)
    let b1 := match row with
      | some r => setCell b r col AI_PIECE
      | none => b
    let res := rec b1 alpha beta
    let new_score := res.1
    -- undo move: `self.board = b_copy`; the recursion's board `res.2` is discarded
    let b2 := b_copy
    let vc := if XInt.lt value new_score then (new_score, some col) else (value, column)
    let alpha' := XInt.max alpha vc.1
    if XInt.le beta alpha' then ((vc.2, vc.1), b2)
    else maxLoop rec rest b2 vc.2 vc.1 alpha' beta

/-- The minimizing-player loop of `minimax`. -/
def minLoop (rec : Board → XInt → XInt → XInt × Board) :
    List ℕ → Board → Option ℕ → XInt → XInt → XInt → ((Option ℕ × XInt) × Board)
  | [], b, column, value, _, _ => ((column, value), b)
  | col :: rest, b, column, value, alpha, beta =>
    let row := get_next_open_row b col
    let b_copy := b
    let b1 := match row with
      | some r => setCell b r col PLAYER_PIECE
      | none => b
    let res := rec b1 alpha beta
    let new_score := res.1
    let b2 := b_copy
    let vc := if XInt.lt new_score value then (new_score, some col) else (value, column)
    let beta' := XInt.min beta vc.1
    if XInt.le beta' alpha then ((vc.2, vc.1), b2)
    else minLoop rec rest b2 vc.2 vc.1 alpha beta'

/-- `minimax(board, depth, alpha, beta, maximizingPlayer)`, generalized over
the depth-0 heuristic `h`.  Returns `((column, value), board-after-call)`. -/
def minimaxH (h : Board → ℤ) (ch : List ℕ → ℕ) :
    ℕ → Board → XInt → XInt → Bool → ((Option ℕ × XInt) × Board)
  | 0, b, _, _, _ =>
    if is_terminal_node b then
      if winning_move b AI_PIECE then ((none, .fin 100000000000000), b)
      else if winning_move b PLAYER_PIECE then ((none, .fin (-10000000000000)), b)
      else ((none, .fin 0), b)
    else ((none, .fin (h b)), b)
  | d + 1, b, alpha, beta, maximizingPlayer =>
    if is_terminal_node b then
      if winning_move b AI_PIECE then ((none, .fin 100000000000000), b)
      else if winning_move b PLAYER_PIECE then ((none, .fin (-10000000000000)), b)
      else ((none, .fin 0), b)
    else
      let valid_locations := get_valid_locations b
      if maximizingPlayer then
        maxLoop (fun b' a' b'' => let r := minimaxH h ch d b' a' b'' false; (r.1.2, r.2))
          valid_locations b (some (ch valid_locations)) XInt.negInf alpha beta
      else
        minLoop (fun b' a' b'' => let r := minimaxH h ch d b' a' b'' true; (r.1.2, r.2))
          valid_locations b (some (ch valid_locations)) XInt.posInf alpha beta

/-- `minimax` as in the source: the heuristic is `score_position(AI_PIECE)`. -/
def minimax (ch : List ℕ → ℕ) (d : ℕ) (b : Board) (alpha beta : XInt)
    (maximizingPlayer : Bool) : ((Option ℕ × XInt) × Board) :=
  minimaxH (fun b' => score_position b' AI_PIECE) ch d b alpha beta maximizingPlayer

/-- `get_best_move(depth=5)`: run `minimax(board, depth, -inf, inf, True)` and
return the column (paired here with the board after the call). -/
def get_best_move (ch : List ℕ → ℕ) (b : Board) (depth : ℕ := 5) : Option ℕ × Board :=
  let r := minimax ch depth b XInt.negInf XInt.posInf true
  (r.1.1, r.2)

/-! ### Unpruned full minimax (spec side, for the refinement claim C1)

Written from the spec's words: "an unpruned full minimax (the same
recursion with no alpha/beta cutoffs) over the same grid, depth, and
tie-break rule".  Pure (no board threading is needed: each child is
evaluated on the board with the speculative move applied). -/

/-- Maximizing loop of the unpruned minimax: no alpha/beta, no cutoff. -/
def fullMaxLoop (rec : Board → XInt) (b : Board) :
    List ℕ → Option ℕ → XInt → Option ℕ × XInt
  | [], column, value => (column, value)
  | col :: rest, column, value =>
    let b1 := match get_next_open_row b col with
      | some r => setCell b r col AI_PIECE
      | none => b
    let s := rec b1
    let vc := if XInt.lt value s then (s, some col) else (value, column)
    fullMaxLoop rec b rest vc.2 vc.1

/-- Minimizing loop of the unpruned minimax. -/
def fullMinLoop (rec : Board → XInt) (b : Board) :
    List ℕ → Option ℕ → XInt → Option ℕ × XInt
  | [], column, value => (column, value)
  | col :: rest, column, value =>
    let b1 := match get_next_open_row b col with
      | some r => setCell b r col PLAYER_PIECE
      | none => b
    let s := rec b1
    let vc := if XInt.lt s value then (s, some col) else (value, column)
    fullMinLoop rec b rest vc.2 vc.1

/-- Unpruned full minimax: the same recursion as `minimaxH`, same tie-break
rule `ch`, same terminal sentinels, but no alpha/beta cutoffs. -/
def fullMinimaxH (h : Board → ℤ) (ch : List ℕ → ℕ) :
    ℕ → Board → Bool → Option ℕ × XInt
  | 0, b, _ =>
    if is_terminal_node b then
      if winning_move b AI_PIECE then (none, .fin 100000000000000)
      else if winning_move b PLAYER_PIECE then (none, .fin (-10000000000000))
      else (none, .fin 0)
    else (none, .fin (h b))
  | d + 1, b, maximizingPlayer =>
    if is_terminal_node b then
      if winning_move b AI_PIECE then (none, .fin 100000000000000)
      else if winning_move b PLAYER_PIECE then (none, .fin (-10000000000000))
      else (none, .fin 0)
    else
      let valid_locations := get_valid_locations b
      if maximizingPlayer then
        fullMaxLoop (fun b' => (fullMinimaxH h ch d b' false).2) b
          valid_locations (some (ch valid_locations)) XInt.negInf
      else
        fullMinLoop (fun b' => (fullMinimaxH h ch d b' true).2) b
          valid_locations (some (ch valid_locations)) XInt.posInf

/-- Unpruned full minimax with the source heuristic. -/
def fullMinimax (ch : List ℕ → ℕ) (d : ℕ) (b : Board)
    (maximizingPlayer : Bool) : Option ℕ × XInt :=
  fullMinimaxH (fun b' => score_position b' AI_PIECE) ch d b maximizingPlayer

/-! ### GodModeEngine -/

/-- `force_place_token(row, col, piece)`: bounds-checked arbitrary write
(rows and columns are Python ints, hence `ℤ` here).  Returns the success
flag and the board after the call. -/
def force_place_token (b : Board) (row col : ℤ) (piece : ℕ) : Bool × Board :=
  if 0 ≤ row ∧ row < (ROW_COUNT : ℤ) ∧ 0 ≤ col ∧ col < (COLUMN_COUNT : ℤ) then
    (true, setCell b row.toNat col.toNat piece)
  else
    (false, b)

/-- `remove_token(row, col)`: bounds-checked erase to `EMPTY`. -/
def remove_token (b : Board) (row col : ℤ) : Bool × Board :=
  if 0 ≤ row ∧ row < (ROW_COUNT : ℤ) ∧ 0 ≤ col ∧ col < (COLUMN_COUNT : ℤ) then
    (true, setCell b row.toNat col.toNat EMPTY)
  else
    (false, b)

/-! ### Rule-driven reachability (for the gravity invariant C5) -/

/-- Boards reachable from the empty board by rule-driven drops: each drop
targets a column `col < COLUMN_COUNT` with `is_valid_location`, places a
token (`PLAYER_PIECE` or `AI_PIECE`) at the row returned by
`get_next_open_row`, via `drop_piece`. -/
inductive Reach : Board → Prop where
  | create : Reach create_board
  | drop (b : Board) (col piece row : ℕ) (hcol : col < COLUMN_COUNT)
      (hv : is_valid_location b col = true)
      (hp : piece = PLAYER_PIECE ∨ piece = AI_PIECE)
      (hrow : get_next_open_row b col = some row)
      (hb : Reach b) :
      Reach (drop_piece b row col piece)

/-- Build a board from a list of rows (row 0 = top), defaulting to `EMPTY`
outside the given lists.  Used for concrete test positions. -/
def ofRows (rows : List (List ℕ)) : Board :=
  fun r c => (rows.getD r []).getD c 0

/-- Spec-side restatement of the heuristic (for claim C7): count of the
token in the middle column times 3, plus the sum of `evaluate_window` over
every horizontal 4-cell window and every vertical 4-cell window; no
diagonal window contributes. -/
def scorePositionSpec (b : Board) (piece : ℕ) : ℤ :=
  3 * (((Finset.range ROW_COUNT).filter
    (fun r => b r (COLUMN_COUNT / 2) = piece)).card : ℤ) +
  (∑ r ∈ Finset.range ROW_COUNT, ∑ c ∈ Finset.range (COLUMN_COUNT - 3),
    evaluate_window (hwin b r c) piece) +
  (∑ c ∈ Finset.range COLUMN_COUNT, ∑ r ∈ Finset.range (ROW_COUNT - 3),
    evaluate_window (vwin b c r) piece)

/-! ### Concrete positions and tie-break functions used as test inputs -/

/-- Tie-break: first valid column. -/
def chFst : List ℕ → ℕ := fun l => l.getD 0 0

/-- Tie-break: constant 0 (an arbitrary other outcome of `random.choice`). -/
def chZero : List ℕ → ℕ := fun _ => 0

/-- A (god-mode reachable) grid where BOTH tokens have a vertical
four-in-a-row: column 0 holds four `AI_PIECE`, column 6 four `PLAYER_PIECE`. -/
def bBoth : Board :=
  ofRows [[], [], [2, 0, 0, 0, 0, 0, 1], [2, 0, 0, 0, 0, 0, 1],
    [2, 0, 0, 0, 0, 0, 1], [2, 0, 0, 0, 0, 0, 1]]

/-- A terminal grid where only the AI has a (vertical) four-in-a-row. -/
def bAIWin : Board := ofRows [[], [], [2], [2], [2], [2]]

/-- A non-terminal mid-game grid. -/
def bMid : Board :=
  ofRows [[], [], [], [0, 0, 1, 2], [0, 1, 2, 1], [1, 2, 1, 2, 2]]

/-- Two rule-driven drops into column 3 of the empty board. -/
def bTwoDrops : Board :=
  drop_piece (drop_piece create_board 5 3 PLAYER_PIECE) 4 3 AI_PIECE

/-! ### Order toolkit for `XInt` -/

namespace XInt

@[simp] theorem le_negInf_left (a : XInt) : le negInf a = true := rfl

@[simp] theorem le_posInf_right (a : XInt) : le a posInf = true := by
  cases a <;> rfl

@[simp] theorem le_fin_fin (a b : ℤ) : le (fin a) (fin b) = decide (a ≤ b) := by
  simp [le]

@[simp] theorem lt_fin_fin (a b : ℤ) : lt (fin a) (fin b) = decide (a < b) := by
  unfold lt le
  by_cases h : b ≤ a <;> simp [h] <;> omega

@[simp] theorem lt_negInf_fin (a : ℤ) : lt negInf (fin a) = true := rfl

@[simp] theorem lt_fin_posInf (a : ℤ) : lt (fin a) posInf = true := rfl

@[simp] theorem lt_negInf_posInf : lt negInf posInf = true := rfl

@[simp] theorem not_lt_posInf (a : XInt) : lt posInf a = false := by
  cases a <;> rfl

@[simp] theorem not_lt_negInf (a : XInt) : lt a negInf = false := by
  cases a <;> rfl

theorem le_refl (a : XInt) : le a a = true := by
  cases a <;> simp [le]

theorem le_total (a b : XInt) : le a b = true ∨ le b a = true := by
  cases a <;> cases b <;> simp [le] <;> omega

theorem le_trans {a b c : XInt} (h1 : le a b = true) (h2 : le b c = true) :
    le a c = true := by
  cases a <;> cases b <;> cases c <;> simp_all [le] <;> omega

theorem le_antisymm {a b : XInt} (h1 : le a b = true) (h2 : le b a = true) :
    a = b := by
  cases a <;> cases b <;> simp_all [le]
  omega

theorem lt_iff_not_le {a b : XInt} : lt a b = true ↔ le b a = false := by
  simp [lt]

theorem not_lt_iff_le {a b : XInt} : lt a b = false ↔ le b a = true := by
  simp [lt]

theorem lt_of_le_of_lt {a b c : XInt} (h1 : le a b = true) (h2 : lt b c = true) :
    lt a c = true := by
  rw [lt_iff_not_le] at h2 ⊢
  cases hca : le c a with
  | false => rfl
  | true => exact absurd (le_trans hca h1) (by simp [h2])

theorem lt_of_lt_of_le {a b c : XInt} (h1 : lt a b = true) (h2 : le b c = true) :
    lt a c = true := by
  rw [lt_iff_not_le] at h1 ⊢
  cases hca : le c a with
  | false => rfl
  | true => exact absurd (le_trans h2 hca) (by simp [h1])

theorem le_of_lt {a b : XInt} (h : lt a b = true) : le a b = true := by
  rw [lt_iff_not_le] at h
  rcases le_total a b with h' | h'
  · exact h'
  · simp_all

theorem le_of_not_lt {a b : XInt} (h : lt a b = false) : le b a = true :=
  not_lt_iff_le.mp h

@[simp] theorem max_negInf_left (a : XInt) : max negInf a = a := rfl

theorem le_max_left (a b : XInt) : le a (max a b) = true := by
  unfold max
  split
  · assumption
  · exact le_refl a

theorem le_max_right (a b : XInt) : le b (max a b) = true := by
  unfold max
  split
  · exact le_refl b
  · rcases le_total a b with h | h
    · simp_all
    · exact h

theorem max_eq_or (a b : XInt) : max a b = a ∨ max a b = b := by
  unfold max
  split
  · exact Or.inr rfl
  · exact Or.inl rfl

theorem max_le {a b c : XInt} (h1 : le a c = true) (h2 : le b c = true) :
    le (max a b) c = true := by
  rcases max_eq_or a b with h | h <;> rw [h] <;> assumption

theorem lt_max_iff {a b c : XInt} :
    lt c (max a b) = true ↔ lt c a = true ∨ lt c b = true := by
  constructor
  · intro h
    rcases max_eq_or a b with h' | h' <;> rw [h'] at h
    · exact Or.inl h
    · exact Or.inr h
  · intro h
    rcases h with h | h
    · exact lt_of_lt_of_le h (le_max_left a b)
    · exact lt_of_lt_of_le h (le_max_right a b)

theorem le_of_max_eq_right {c a : XInt} (h : max c a = a) : le c a = true := by
  unfold max at h
  split at h
  · assumption
  · subst h
    exact le_refl _

theorem max_assoc_self {a b c : XInt} (h : le a b = true) :
    max (max c a) b = max c b := by
  rcases max_eq_or c a with h' | h' <;> rw [h']
  have hcb : le c b = true := le_trans (le_of_max_eq_right h') h
  unfold max
  simp [h, hcb]

theorem isFin_iff {a : XInt} : IsFin a ↔ ∃ n : ℤ, a = fin n := by
  cases a <;> simp [IsFin]

theorem lt_negInf_of_isFin {a : XInt} (h : IsFin a) : lt negInf a = true := by
  rcases isFin_iff.mp h with ⟨n, rfl⟩
  rfl

theorem lt_posInf_of_isFin {a : XInt} (h : IsFin a) : lt a posInf = true := by
  rcases isFin_iff.mp h with ⟨n, rfl⟩
  rfl

theorem isFin_of_le_of_le {a b c : XInt} (hf : IsFin a) (hg : IsFin c)
    (h1 : le a b = true) (h2 : le b c = true) : IsFin b := by
  rcases isFin_iff.mp hf with ⟨m, rfl⟩
  rcases isFin_iff.mp hg with ⟨n, rfl⟩
  cases b <;> simp_all [le, IsFin]

theorem max_isFin {a b : XInt} (ha : IsFin a ∨ a = negInf) (hb : IsFin b) :
    IsFin (max a b) := by
  rcases ha with ha | rfl
  · rcases max_eq_or a b with h' | h' <;> rw [h']
    · exact ha
    · exact hb
  · rw [max_negInf_left]
    exact hb

theorem lt_irrefl (a : XInt) : lt a a = false := by
  simp [lt, le_refl]

theorem max_negInf_right (a : XInt) : max a negInf = a := by
  cases a <;> rfl

theorem max_self (a : XInt) : max a a = a := by
  simp [max, le_refl]

theorem le_of_max_eq_left {c a : XInt} (h : max c a = c) : le a c = true := by
  unfold max at h
  split at h
  · subst h
    assumption
  · rename_i hf
    rcases le_total a c with h' | h'
    · exact h'
    · simp_all

theorem max_eq_left_of_le {c a : XInt} (h : le a c = true) : max c a = c := by
  unfold max
  split
  · exact le_antisymm h (by assumption)
  · rfl

theorem max_eq_right_of_le {c a : XInt} (h : le c a = true) : max c a = a := by
  unfold max
  simp [h]

theorem min_posInf_left (a : XInt) : min posInf a = a := by
  cases a <;> rfl

theorem min_posInf_right (a : XInt) : min a posInf = a := by
  cases a <;> simp [min, le]

theorem min_self (a : XInt) : min a a = a := by
  simp [min, le_refl]

theorem min_le_left (a b : XInt) : le (min a b) a = true := by
  unfold min
  split
  · exact le_refl a
  · rcases le_total a b with h | h
    · simp_all
    · exact h

theorem min_le_right (a b : XInt) : le (min a b) b = true := by
  unfold min
  split
  · assumption
  · exact le_refl b

theorem min_eq_or (a b : XInt) : min a b = a ∨ min a b = b := by
  unfold min
  split
  · exact Or.inl rfl
  · exact Or.inr rfl

theorem le_min {a b c : XInt} (h1 : le c a = true) (h2 : le c b = true) :
    le c (min a b) = true := by
  rcases min_eq_or a b with h | h <;> rw [h] <;> assumption

theorem le_of_min_eq_right {c a : XInt} (h : min c a = a) : le a c = true := by
  unfold min at h
  split at h
  · subst h
    exact le_refl _
  · rcases le_total a c with h' | h'
    · assumption
    · rename_i hf
      simp_all

theorem le_of_min_eq_left {c a : XInt} (h : min c a = c) : le c a = true := by
  unfold min at h
  split at h
  · assumption
  · subst h
    exact le_refl _

theorem min_eq_left_of_le {c a : XInt} (h : le c a = true) : min c a = c := by
  unfold min
  simp [h]

theorem min_eq_right_of_le {c a : XInt} (h : le a c = true) : min c a = a := by
  unfold min
  split
  · exact le_antisymm (by assumption) h
  · rfl

theorem min_assoc_self {a b c : XInt} (h : le b a = true) :
    min (min c a) b = min c b := by
  rcases min_eq_or c a with h' | h' <;> rw [h']
  have hbc : le b c = true := le_trans h (le_of_min_eq_right h')
  rw [min_eq_right_of_le hbc, min_eq_right_of_le h]

theorem lt_min_iff {a b c : XInt} :
    lt (min a b) c = true ↔ lt a c = true ∨ lt b c = true := by
  constructor
  · intro h
    rcases min_eq_or a b with h' | h' <;> rw [h'] at h
    · exact Or.inl h
    · exact Or.inr h
  · intro h
    rcases h with h | h
    · exact lt_of_le_of_lt (min_le_left a b) h
    · exact lt_of_le_of_lt (min_le_right a b) h

theorem min_isFin {a b : XInt} (ha : IsFin a ∨ a = posInf) (hb : IsFin b) :
    IsFin (min a b) := by
  rcases ha with ha | rfl
  · rcases min_eq_or a b with h' | h' <;> rw [h']
    · exact ha
    · exact hb
  · rw [min_posInf_left]
    exact hb

theorem ne_negInf_of_isFin {a : XInt} (h : IsFin a) : a ≠ negInf := by
  rcases isFin_iff.mp h with ⟨n, rfl⟩
  simp

theorem ne_posInf_of_isFin {a : XInt} (h : IsFin a) : a ≠ posInf := by
  rcases isFin_iff.mp h with ⟨n, rfl⟩
  simp

theorem not_le_of_lt {a b : XInt} (h : lt a b = true) : ¬ le b a = true := by
  rw [lt_iff_not_le] at h
  simp [h]

theorem max_lt {a b c : XInt} (h1 : lt a c = true) (h2 : lt b c = true) :
    lt (max a b) c = true := by
  rcases max_eq_or a b with h | h <;> rw [h] <;> assumption

theorem lt_min {a b c : XInt} (h1 : lt c a = true) (h2 : lt c b = true) :
    lt c (min a b) = true := by
  rcases min_eq_or a b with h | h <;> rw [h] <;> assumption

theorem max_between {A0 vA vA' alphaC : XInt} (halpha : alphaC = max A0 vA)
    (h1 : le vA vA' = true) (h2 : le vA' alphaC = true) :
    alphaC = max A0 vA' := by
  subst halpha
  apply le_antisymm
  · exact max_le (le_max_left _ _) (le_trans h1 (le_max_right _ _))
  · exact max_le (le_max_left _ _) h2

theorem min_between {B0 vA vA' betaC : XInt} (hbeta : betaC = min B0 vA)
    (h1 : le vA' vA = true) (h2 : le betaC vA' = true) :
    betaC = min B0 vA' := by
  subst hbeta
  apply le_antisymm
  · exact le_min (min_le_left _ _) h2
  · exact le_min (min_le_left _ _) (le_trans (min_le_right _ _) h1)

end XInt

/-! ### The unpruned loops only improve their running value -/

theorem fullMaxLoop_mono (rec : Board → XInt) (b : Board) :
    ∀ (cols : List ℕ) (col : Option ℕ) (v : XInt),
      XInt.le v (fullMaxLoop rec b cols col v).2 = true := by
  intro cols
  induction cols with
  | nil => intro col v; exact XInt.le_refl v
  | cons c rest ih =>
    intro col v
    simp only [fullMaxLoop]
    split
    case isTrue hlt => exact XInt.le_trans (XInt.le_of_lt hlt) (ih _ _)
    case isFalse hlt => exact ih _ _

theorem fullMinLoop_mono (rec : Board → XInt) (b : Board) :
    ∀ (cols : List ℕ) (col : Option ℕ) (v : XInt),
      XInt.le (fullMinLoop rec b cols col v).2 v = true := by
  intro cols
  induction cols with
  | nil => intro col v; exact XInt.le_refl v
  | cons c rest ih =>
    intro col v
    simp only [fullMinLoop]
    split
    case isTrue hlt => exact XInt.le_trans (ih _ _) (XInt.le_of_lt hlt)
    case isFalse hlt => exact ih _ _

/-! ### Basic facts: purity of the search (mutate/undo leaves no residue) -/

theorem maxLoop_board (rec : Board → XInt → XInt → XInt × Board) :
    ∀ (cols : List ℕ) (b : Board) (col : Option ℕ) (v alpha beta : XInt),
      (maxLoop rec cols b col v alpha beta).2 = b := by
  intro cols
  induction cols with
  | nil => intro b col v alpha beta; rfl
  | cons c rest ih =>
    intro b col v alpha beta
    simp only [maxLoop]
    split <;> split
    · rfl
    · exact ih b _ _ _ _
    · rfl
    · exact ih b _ _ _ _

theorem minLoop_board (rec : Board → XInt → XInt → XInt × Board) :
    ∀ (cols : List ℕ) (b : Board) (col : Option ℕ) (v alpha beta : XInt),
      (minLoop rec cols b col v alpha beta).2 = b := by
  intro cols
  induction cols with
  | nil => intro b col v alpha beta; rfl
  | cons c rest ih =>
    intro b col v alpha beta
    simp only [minLoop]
    split <;> split
    · rfl
    · exact ih b _ _ _ _
    · rfl
    · exact ih b _ _ _ _

theorem minimaxH_board (h : Board → ℤ) (ch : List ℕ → ℕ) (d : ℕ) (b : Board)
    (alpha beta : XInt) (mp : Bool) :
    (minimaxH h ch d b alpha beta mp).2 = b := by
  cases d with
  | zero =>
    simp only [minimaxH]
    split
    · split
      · rfl
      · split <;> rfl
    · rfl
  | succ d =>
    simp only [minimaxH]
    split
    · split
      · rfl
      · split <;> rfl
    · split
      · exact maxLoop_board _ _ _ _ _ _ _
      · exact minLoop_board _ _ _ _ _ _ _

/-! ### Valid locations and terminal positions -/

theorem valid_ne_nil_of_not_terminal {b : Board}
    (h : is_terminal_node b = false) : get_valid_locations b ≠ [] := by
  unfold is_terminal_node at h
  simp only [Bool.or_eq_false_iff, beq_eq_false_iff_ne] at h
  intro hnil
  exact h.2 (by rw [hnil]; rfl)

/-! ### Every search value is finite (never `±inf`) -/

theorem maxLoop_fin (rec : Board → XInt → XInt → XInt × Board)
    (hrec : ∀ b' a' b'', XInt.IsFin (rec b' a' b'').1) :
    ∀ (cols : List ℕ) (b : Board) (col : Option ℕ) (v alpha beta : XInt),
      (XInt.IsFin v ∨ (v = XInt.negInf ∧ cols ≠ [])) →
      XInt.IsFin (maxLoop rec cols b col v alpha beta).1.2 := by
  intro cols
  induction cols with
  | nil =>
    intro b col v alpha beta hv
    rcases hv with hv | ⟨_, hne⟩
    · exact hv
    · exact absurd rfl hne
  | cons c rest ih =>
    intro b col v alpha beta hv
    simp only [maxLoop]
    split
    case isTrue hlt =>
      split
      · exact hrec _ _ _
      · exact ih b _ _ _ _ (Or.inl (hrec _ _ _))
    case isFalse hlt =>
      have hv' : XInt.IsFin v := by
        rcases hv with hv | ⟨rfl, _⟩
        · exact hv
        · exact absurd (XInt.lt_negInf_of_isFin (hrec _ _ _)) hlt
      split
      · exact hv'
      · exact ih b _ _ _ _ (Or.inl hv')

theorem minLoop_fin (rec : Board → XInt → XInt → XInt × Board)
    (hrec : ∀ b' a' b'', XInt.IsFin (rec b' a' b'').1) :
    ∀ (cols : List ℕ) (b : Board) (col : Option ℕ) (v alpha beta : XInt),
      (XInt.IsFin v ∨ (v = XInt.posInf ∧ cols ≠ [])) →
      XInt.IsFin (minLoop rec cols b col v alpha beta).1.2 := by
  intro cols
  induction cols with
  | nil =>
    intro b col v alpha beta hv
    rcases hv with hv | ⟨_, hne⟩
    · exact hv
    · exact absurd rfl hne
  | cons c rest ih =>
    intro b col v alpha beta hv
    simp only [minLoop]
    split
    case isTrue hlt =>
      split
      · exact hrec _ _ _
      · exact ih b _ _ _ _ (Or.inl (hrec _ _ _))
    case isFalse hlt =>
      have hv' : XInt.IsFin v := by
        rcases hv with hv | ⟨rfl, _⟩
        · exact hv
        · exact absurd (XInt.lt_posInf_of_isFin (hrec _ _ _)) hlt
      split
      · exact hv'
      · exact ih b _ _ _ _ (Or.inl hv')

theorem minimaxH_fin (h : Board → ℤ) (ch : List ℕ → ℕ) :
    ∀ (d : ℕ) (b : Board) (alpha beta : XInt) (mp : Bool),
      XInt.IsFin (minimaxH h ch d b alpha beta mp).1.2 := by
  intro d
  induction d with
  | zero =>
    intro b alpha beta mp
    simp only [minimaxH]
    split
    · split
      · trivial
      · split <;> trivial
    · trivial
  | succ d ih =>
    intro b alpha beta mp
    simp only [minimaxH]
    split
    · split
      · trivial
      · split <;> trivial
    · rename_i hterm
      rw [Bool.not_eq_true] at hterm
      have hne := valid_ne_nil_of_not_terminal hterm
      split
      · exact maxLoop_fin _ (fun b' a' b'' => ih b' a' b'' false) _ _ _ _ _ _
          (Or.inr ⟨rfl, hne⟩)
      · exact minLoop_fin _ (fun b' a' b'' => ih b' a' b'' true) _ _ _ _ _ _
          (Or.inr ⟨rfl, hne⟩)

theorem fullMaxLoop_fin (rec : Board → XInt) (hrec : ∀ b', XInt.IsFin (rec b'))
    (b : Board) :
    ∀ (cols : List ℕ) (col : Option ℕ) (v : XInt),
      (XInt.IsFin v ∨ (v = XInt.negInf ∧ cols ≠ [])) →
      XInt.IsFin (fullMaxLoop rec b cols col v).2 := by
  intro cols
  induction cols with
  | nil =>
    intro col v hv
    rcases hv with hv | ⟨_, hne⟩
    · exact hv
    · exact absurd rfl hne
  | cons c rest ih =>
    intro col v hv
    simp only [fullMaxLoop]
    split
    case isTrue hlt => exact ih _ _ (Or.inl (hrec _))
    case isFalse hlt =>
      rcases hv with hv | ⟨rfl, _⟩
      · exact ih _ _ (Or.inl hv)
      · exact absurd (XInt.lt_negInf_of_isFin (hrec _)) hlt

theorem fullMinLoop_fin (rec : Board → XInt) (hrec : ∀ b', XInt.IsFin (rec b'))
    (b : Board) :
    ∀ (cols : List ℕ) (col : Option ℕ) (v : XInt),
      (XInt.IsFin v ∨ (v = XInt.posInf ∧ cols ≠ [])) →
      XInt.IsFin (fullMinLoop rec b cols col v).2 := by
  intro cols
  induction cols with
  | nil =>
    intro col v hv
    rcases hv with hv | ⟨_, hne⟩
    · exact hv
    · exact absurd rfl hne
  | cons c rest ih =>
    intro col v hv
    simp only [fullMinLoop]
    split
    case isTrue hlt => exact ih _ _ (Or.inl (hrec _))
    case isFalse hlt =>
      rcases hv with hv | ⟨rfl, _⟩
      · exact ih _ _ (Or.inl hv)
      · exact absurd (XInt.lt_posInf_of_isFin (hrec _)) hlt

theorem fullMinimaxH_fin (h : Board → ℤ) (ch : List ℕ → ℕ) :
    ∀ (d : ℕ) (b : Board) (mp : Bool),
      XInt.IsFin (fullMinimaxH h ch d b mp).2 := by
  intro d
  induction d with
  | zero =>
    intro b mp
    simp only [fullMinimaxH]
    split
    · split
      · trivial
      · split <;> trivial
    · trivial
  | succ d ih =>
    intro b mp
    simp only [fullMinimaxH]
    split
    · split
      · trivial
      · split <;> trivial
    · rename_i hterm
      rw [Bool.not_eq_true] at hterm
      have hne := valid_ne_nil_of_not_terminal hterm
      split
      · exact fullMaxLoop_fin _ (fun b' => ih b' false) _ _ _ _ (Or.inr ⟨rfl, hne⟩)
      · exact fullMinLoop_fin _ (fun b' => ih b' true) _ _ _ _ (Or.inr ⟨rfl, hne⟩)

/-! ### The random tie-break seed is observationally inconsequential -/

theorem maxLoop_congr (rec1 rec2 : Board → XInt → XInt → XInt × Board)
    (hrec : ∀ b' a' b'', (rec1 b' a' b'').1 = (rec2 b' a' b'').1) :
    ∀ (cols : List ℕ) (b : Board) (col : Option ℕ) (v alpha beta : XInt),
      (maxLoop rec1 cols b col v alpha beta).1 =
        (maxLoop rec2 cols b col v alpha beta).1 := by
  intro cols
  induction cols with
  | nil => intro b col v alpha beta; rfl
  | cons c rest ih =>
    intro b col v alpha beta
    simp only [maxLoop, hrec]
    split <;> split
    · rfl
    · exact ih b _ _ _ _
    · rfl
    · exact ih b _ _ _ _

theorem minLoop_congr (rec1 rec2 : Board → XInt → XInt → XInt × Board)
    (hrec : ∀ b' a' b'', (rec1 b' a' b'').1 = (rec2 b' a' b'').1) :
    ∀ (cols : List ℕ) (b : Board) (col : Option ℕ) (v alpha beta : XInt),
      (minLoop rec1 cols b col v alpha beta).1 =
        (minLoop rec2 cols b col v alpha beta).1 := by
  intro cols
  induction cols with
  | nil => intro b col v alpha beta; rfl
  | cons c rest ih =>
    intro b col v alpha beta
    simp only [minLoop, hrec]
    split <;> split
    · rfl
    · exact ih b _ _ _ _
    · rfl
    · exact ih b _ _ _ _

theorem maxLoop_seed (rec : Board → XInt → XInt → XInt × Board)
    (hrec : ∀ b' a' b'', XInt.IsFin (rec b' a' b'').1) :
    ∀ (cols : List ℕ) (b : Board) (col1 col2 : Option ℕ) (alpha beta : XInt),
      cols ≠ [] →
      (maxLoop rec cols b col1 XInt.negInf alpha beta).1 =
        (maxLoop rec cols b col2 XInt.negInf alpha beta).1 := by
  intro cols b col1 col2 alpha beta hne
  cases cols with
  | nil => exact absurd rfl hne
  | cons c rest =>
    simp only [maxLoop]
    have hs := hrec (match get_next_open_row b c with
      | some r => setCell b r c AI_PIECE
      | none => b) alpha beta
    rw [if_pos (XInt.lt_negInf_of_isFin hs), if_pos (XInt.lt_negInf_of_isFin hs)]

theorem minLoop_seed (rec : Board → XInt → XInt → XInt × Board)
    (hrec : ∀ b' a' b'', XInt.IsFin (rec b' a' b'').1) :
    ∀ (cols : List ℕ) (b : Board) (col1 col2 : Option ℕ) (alpha beta : XInt),
      cols ≠ [] →
      (minLoop rec cols b col1 XInt.posInf alpha beta).1 =
        (minLoop rec cols b col2 XInt.posInf alpha beta).1 := by
  intro cols b col1 col2 alpha beta hne
  cases cols with
  | nil => exact absurd rfl hne
  | cons c rest =>
    simp only [minLoop]
    have hs := hrec (match get_next_open_row b c with
      | some r => setCell b r c PLAYER_PIECE
      | none => b) alpha beta
    rw [if_pos (XInt.lt_posInf_of_isFin hs), if_pos (XInt.lt_posInf_of_isFin hs)]

theorem minimaxH_ch (h : Board → ℤ) (ch1 ch2 : List ℕ → ℕ) :
    ∀ (d : ℕ) (b : Board) (alpha beta : XInt) (mp : Bool),
      minimaxH h ch1 d b alpha beta mp = minimaxH h ch2 d b alpha beta mp := by
  intro d
  induction d with
  | zero => intro b alpha beta mp; rfl
  | succ d ih =>
    intro b alpha beta mp
    simp only [minimaxH]
    split
    · rfl
    · rename_i hterm
      rw [Bool.not_eq_true] at hterm
      have hne := valid_ne_nil_of_not_terminal hterm
      split
      · refine Prod.ext ?_ ?_
        · calc (maxLoop _ (get_valid_locations b) b
                (some (ch1 (get_valid_locations b))) XInt.negInf alpha beta).1
              = (maxLoop _ (get_valid_locations b) b
                (some (ch2 (get_valid_locations b))) XInt.negInf alpha beta).1 :=
                maxLoop_seed _ (fun b' a' b'' => minimaxH_fin h ch1 d b' a' b'' false)
                  _ _ _ _ alpha beta hne
            _ = _ := maxLoop_congr _ _
                (fun b' a' b'' => congrArg (fun x => x.1.2) (ih b' a' b'' false))
                _ b _ _ alpha beta
        · rw [maxLoop_board, maxLoop_board]
      · refine Prod.ext ?_ ?_
        · calc (minLoop _ (get_valid_locations b) b
                (some (ch1 (get_valid_locations b))) XInt.posInf alpha beta).1
              = (minLoop _ (get_valid_locations b) b
                (some (ch2 (get_valid_locations b))) XInt.posInf alpha beta).1 :=
                minLoop_seed _ (fun b' a' b'' => minimaxH_fin h ch1 d b' a' b'' true)
                  _ _ _ _ alpha beta hne
            _ = _ := minLoop_congr _ _
                (fun b' a' b'' => congrArg (fun x => x.1.2) (ih b' a' b'' true))
                _ b _ _ alpha beta
        · rw [minLoop_board, minLoop_board]

/-! ### The returned column is a valid location -/

theorem maxLoop_mem (rec : Board → XInt → XInt → XInt × Board)
    (hrec : ∀ b' a' b'', XInt.IsFin (rec b' a' b'').1) (S : List ℕ) :
    ∀ (cols : List ℕ) (b : Board) (col : Option ℕ) (v alpha beta : XInt),
      cols ⊆ S →
      ((∃ c ∈ S, col = some c) ∧ XInt.IsFin v) ∨ (v = XInt.negInf ∧ cols ≠ []) →
      ∃ c ∈ S, (maxLoop rec cols b col v alpha beta).1.1 = some c := by
  intro cols
  induction cols with
  | nil =>
    intro b col v alpha beta _ hv
    rcases hv with ⟨⟨c, hc, rfl⟩, _⟩ | ⟨_, hne⟩
    · exact ⟨c, hc, rfl⟩
    · exact absurd rfl hne
  | cons c rest ih =>
    intro b col v alpha beta hsub hv
    have hcS : c ∈ S := hsub (List.mem_cons_self c rest)
    have hrestS : rest ⊆ S := fun x hx => hsub (List.mem_cons_of_mem c hx)
    simp only [maxLoop]
    split
    case isTrue hlt =>
      split
      · exact ⟨c, hcS, rfl⟩
      · exact ih b _ _ _ _ hrestS (Or.inl ⟨⟨c, hcS, rfl⟩, hrec _ _ _⟩)
    case isFalse hlt =>
      have hv' : (∃ c' ∈ S, col = some c') ∧ XInt.IsFin v := by
        rcases hv with hv | ⟨rfl, _⟩
        · exact hv
        · exact absurd (XInt.lt_negInf_of_isFin (hrec _ _ _)) hlt
      rcases hv' with ⟨⟨c', hc', rfl⟩, hfin⟩
      split
      · exact ⟨c', hc', rfl⟩
      · exact ih b _ _ _ _ hrestS (Or.inl ⟨⟨c', hc', rfl⟩, hfin⟩)

theorem minLoop_mem (rec : Board → XInt → XInt → XInt × Board)
    (hrec : ∀ b' a' b'', XInt.IsFin (rec b' a' b'').1) (S : List ℕ) :
    ∀ (cols : List ℕ) (b : Board) (col : Option ℕ) (v alpha beta : XInt),
      cols ⊆ S →
      ((∃ c ∈ S, col = some c) ∧ XInt.IsFin v) ∨ (v = XInt.posInf ∧ cols ≠ []) →
      ∃ c ∈ S, (minLoop rec cols b col v alpha beta).1.1 = some c := by
  intro cols
  induction cols with
  | nil =>
    intro b col v alpha beta _ hv
    rcases hv with ⟨⟨c, hc, rfl⟩, _⟩ | ⟨_, hne⟩
    · exact ⟨c, hc, rfl⟩
    · exact absurd rfl hne
  | cons c rest ih =>
    intro b col v alpha beta hsub hv
    have hcS : c ∈ S := hsub (List.mem_cons_self c rest)
    have hrestS : rest ⊆ S := fun x hx => hsub (List.mem_cons_of_mem c hx)
    simp only [minLoop]
    split
    case isTrue hlt =>
      split
      · exact ⟨c, hcS, rfl⟩
      · exact ih b _ _ _ _ hrestS (Or.inl ⟨⟨c, hcS, rfl⟩, hrec _ _ _⟩)
    case isFalse hlt =>
      have hv' : (∃ c' ∈ S, col = some c') ∧ XInt.IsFin v := by
        rcases hv with hv | ⟨rfl, _⟩
        · exact hv
        · exact absurd (XInt.lt_posInf_of_isFin (hrec _ _ _)) hlt
      rcases hv' with ⟨⟨c', hc', rfl⟩, hfin⟩
      split
      · exact ⟨c', hc', rfl⟩
      · exact ih b _ _ _ _ hrestS (Or.inl ⟨⟨c', hc', rfl⟩, hfin⟩)

theorem minimaxH_col_none (h : Board → ℤ) (ch : List ℕ → ℕ) (d : ℕ) (b : Board)
    (alpha beta : XInt) (mp : Bool) (hd : d = 0 ∨ is_terminal_node b = true) :
    (minimaxH h ch d b alpha beta mp).1.1 = none := by
  rcases hd with rfl | hterm
  · simp only [minimaxH]
    split
    · split
      · rfl
      · split <;> rfl
    · rfl
  · cases d <;> simp only [minimaxH] <;> rw [if_pos hterm] <;> split
    · rfl
    · split <;> rfl
    · rfl
    · split <;> rfl

theorem minimaxH_col_mem (h : Board → ℤ) (ch : List ℕ → ℕ) (d : ℕ) (b : Board)
    (alpha beta : XInt) (mp : Bool) (hd : 1 ≤ d)
    (hterm : is_terminal_node b = false) :
    ∃ c ∈ get_valid_locations b,
      (minimaxH h ch d b alpha beta mp).1.1 = some c := by
  cases d with
  | zero => omega
  | succ d =>
    have hne := valid_ne_nil_of_not_terminal hterm
    simp only [minimaxH]
    rw [if_neg (by simp [hterm])]
    split
    · exact maxLoop_mem _ (fun b' a' b'' => minimaxH_fin h ch d b' a' b'' false) _ _
        _ _ _ _ _ (fun x hx => hx) (Or.inr ⟨rfl, hne⟩)
    · exact minLoop_mem _ (fun b' a' b'' => minimaxH_fin h ch d b' a' b'' true) _ _
        _ _ _ _ _ (fun x hx => hx) (Or.inr ⟨rfl, hne⟩)

/-! ### `get_next_open_row` scan facts -/

theorem nextOpenFrom_spec (b : Board) (col : ℕ) :
    ∀ (r0 r : ℕ), nextOpenFrom b col r0 = some r →
      b r col = 0 ∧ r ≤ r0 ∧ ∀ r', r < r' → r' ≤ r0 → b r' col ≠ 0 := by
  intro r0
  induction r0 with
  | zero =>
    intro r hr
    unfold nextOpenFrom at hr
    split at hr
    · cases hr
      exact ⟨by assumption, Nat.le_refl 0, fun r' h1 h2 => by omega⟩
    · cases hr
  | succ r0 ih =>
    intro r hr
    unfold nextOpenFrom at hr
    split at hr
    · cases hr
      exact ⟨by assumption, Nat.le_refl _, fun r' h1 h2 => by omega⟩
    · rename_i hne
      obtain ⟨h1, h2, h3⟩ := ih r hr
      refine ⟨h1, Nat.le_succ_of_le h2, fun r' hlt hle => ?_⟩
      rcases Nat.lt_succ_iff_lt_or_eq.mp (Nat.lt_succ_of_le hle) with h | rfl
      · exact h3 r' hlt (by omega)
      · exact hne

/-! ### Cell-level facts about `setCell` -/

theorem setCell_same (b : Board) (row col piece : ℕ) :
    setCell b row col piece row col = piece := by
  simp [setCell]

theorem setCell_other (b : Board) (row col piece r c : ℕ)
    (h : ¬(r = row ∧ c = col)) : setCell b row col piece r c = b r c := by
  simp [setCell, h]

/-! ### Terminal positions: sentinels, no heuristic -/

theorem minimaxH_terminal (h : Board → ℤ) (ch : List ℕ → ℕ) (d : ℕ) (b : Board)
    (alpha beta : XInt) (mp : Bool) (hterm : is_terminal_node b = true) :
    minimaxH h ch d b alpha beta mp =
      ((none, if winning_move b AI_PIECE then XInt.fin 100000000000000
        else if winning_move b PLAYER_PIECE then XInt.fin (-10000000000000)
        else XInt.fin 0), b) := by
  cases d <;> simp only [minimaxH] <;> rw [if_pos hterm] <;>
    by_cases h2 : winning_move b AI_PIECE = true <;>
    by_cases h1 : winning_move b PLAYER_PIECE = true <;>
    simp [h2, h1]

/-! ### Counting facts for the heuristic window -/

theorem count_three_le_length (w : List ℕ) (a b c : ℕ) (hab : a ≠ b)
    (hac : a ≠ c) (hbc : b ≠ c) :
    w.count a + w.count b + w.count c ≤ w.length := by
  induction w with
  | nil => simp
  | cons x xs ih =>
    by_cases h1 : a = x <;> by_cases h2 : b = x <;> by_cases h3 : c = x <;>
      simp_all [List.count_cons] <;> omega

/-! ### Sums over `List.range` as `Finset` sums -/

theorem listSum_range (f : ℕ → ℤ) : ∀ n : ℕ,
    ((List.range n).map f).sum = ∑ i ∈ Finset.range n, f i := by
  intro n
  induction n with
  | zero => simp
  | succ n ih =>
    rw [List.range_succ, Finset.sum_range_succ, List.map_append,
      List.sum_append, ih]
    simp

theorem count_map_range (f : ℕ → ℕ) (a : ℕ) : ∀ n : ℕ,
    ((List.range n).map f).count a =
      ((Finset.range n).filter (fun i => f i = a)).card := by
  intro n
  induction n with
  | zero => simp
  | succ n ih =>
    rw [List.range_succ, Finset.range_succ, List.map_append, List.count_append,
      Finset.filter_insert]
    by_cases h : f n = a
    · rw [if_pos h, Finset.card_insert_of_not_mem (by simp)]
      simp [List.count_cons, h, ih]
    · rw [if_neg h]
      simp [List.count_cons, h, ih]

/-! ### Alpha-beta window bounds (the classical pruning lemma), max side

For a maximizing loop run with current alpha `alphaC = max A0 vA` and
window `(A0, beta)`: if the unpruned loop value fails low (≤ A0) the
pruned value also fails low; if it fails high (≥ beta) the pruned value
fails high; strictly inside the window the two loop values agree. -/

theorem maxLoop_bounds
    (recAB : Board → XInt → XInt → XInt × Board) (recF : Board → XInt)
    (A0 beta : XInt)
    (hIH : ∀ b' alpha', XInt.lt alpha' beta = true →
      (XInt.le (recF b') alpha' = true →
        XInt.le (recAB b' alpha' beta).1 alpha' = true) ∧
      (XInt.le beta (recF b') = true →
        XInt.le beta (recAB b' alpha' beta).1 = true) ∧
      (XInt.lt alpha' (recF b') = true → XInt.lt (recF b') beta = true →
        (recAB b' alpha' beta).1 = recF b')) :
    ∀ (cols : List ℕ) (b : Board) (colA colF : Option ℕ) (vA vF alphaC : XInt),
      alphaC = XInt.max A0 vA →
      XInt.lt alphaC beta = true →
      (vA = vF ∨ (XInt.le vA A0 = true ∧ XInt.le vF A0 = true)) →
      (XInt.le (fullMaxLoop recF b cols colF vF).2 A0 = true →
        XInt.le (maxLoop recAB cols b colA vA alphaC beta).1.2 A0 = true) ∧
      (XInt.le beta (fullMaxLoop recF b cols colF vF).2 = true →
        XInt.le beta (maxLoop recAB cols b colA vA alphaC beta).1.2 = true) ∧
      (XInt.lt A0 (fullMaxLoop recF b cols colF vF).2 = true →
        XInt.lt (fullMaxLoop recF b cols colF vF).2 beta = true →
        (maxLoop recAB cols b colA vA alphaC beta).1.2 =
          (fullMaxLoop recF b cols colF vF).2) := by
  intro cols
  induction cols with
  | nil =>
    intro b colA colF vA vF alphaC halpha hlt hrel
    simp only [maxLoop, fullMaxLoop]
    have hA0le : XInt.le A0 alphaC = true := by
      rw [halpha]; exact XInt.le_max_left A0 vA
    rcases hrel with rfl | ⟨h1, h2⟩
    · exact ⟨fun h => h, fun h => h, fun _ _ => rfl⟩
    · refine ⟨fun _ => h1, fun hb => ?_, fun hg _ => ?_⟩
      · exact absurd (XInt.le_trans (XInt.le_trans hb h2) hA0le)
          (XInt.not_le_of_lt hlt)
      · have hc := XInt.lt_of_lt_of_le hg h2
        rw [XInt.lt_irrefl] at hc
        cases hc
  | cons c rest ih =>
    intro b colA colF vA vF alphaC halpha hlt hrel
    have hvAle : XInt.le vA alphaC = true := by
      rw [halpha]; exact XInt.le_max_right A0 vA
    have hA0le : XInt.le A0 alphaC = true := by
      rw [halpha]; exact XInt.le_max_left A0 vA
    have hvFle : XInt.le vF alphaC = true := by
      rcases hrel with rfl | ⟨h1, h2⟩
      · exact hvAle
      · exact XInt.le_trans h2 hA0le
    simp only [maxLoop, fullMaxLoop]
    set b1 := (match get_next_open_row b c with
      | some r => setCell b r c AI_PIECE
      | none => b) with hb1
    obtain ⟨hI1, hI2, hI3⟩ := hIH b1 alphaC hlt
    by_cases hsle : XInt.le (recF b1) alphaC = true
    · -- regime (i): the child's unpruned value fails low w.r.t. alphaC
      have hs : XInt.le (recAB b1 alphaC beta).1 alphaC = true := hI1 hsle
      by_cases hA : XInt.lt vA (recAB b1 alphaC beta).1 = true <;>
        by_cases hF : XInt.lt vF (recF b1) = true
      · rw [if_pos hA, if_pos hF,
          XInt.max_eq_left_of_le hs, if_neg (XInt.not_le_of_lt hlt)]
        refine ih b _ _ _ _ alphaC
          (XInt.max_between halpha (XInt.le_of_lt hA) hs) hlt ?_
        rcases hrel with rfl | ⟨h1, h2⟩
        · rcases XInt.max_eq_or A0 vA with hmax | hmax
          · have hACeq : alphaC = A0 := halpha.trans hmax
            refine Or.inr ⟨?_, ?_⟩
            · rw [← hACeq]; exact hs
            · rw [← hACeq]; exact hsle
          · have hvAeq : alphaC = vA := halpha.trans hmax
            have hsle' : XInt.le (recF b1) vA = true := by
              rw [← hvAeq]; exact hsle
            exact absurd hF (by simp [XInt.lt, hsle'])
        · have hACeq : alphaC = A0 :=
            halpha.trans (XInt.max_eq_left_of_le h1)
          refine Or.inr ⟨?_, ?_⟩
          · rw [← hACeq]; exact hs
          · rw [← hACeq]; exact hsle
      · rw [if_pos hA, if_neg hF,
          XInt.max_eq_left_of_le hs, if_neg (XInt.not_le_of_lt hlt)]
        refine ih b _ _ _ _ alphaC
          (XInt.max_between halpha (XInt.le_of_lt hA) hs) hlt ?_
        rcases hrel with rfl | ⟨h1, h2⟩
        · rcases XInt.max_eq_or A0 vA with hmax | hmax
          · have hACeq : alphaC = A0 := halpha.trans hmax
            refine Or.inr ⟨?_, XInt.le_of_max_eq_left hmax⟩
            rw [← hACeq]; exact hs
          · have hvAeq : alphaC = vA := halpha.trans hmax
            have hs' : XInt.le (recAB b1 alphaC beta).1 vA = true := by
              rw [← hvAeq]; exact hs
            exact absurd hA (by simp [XInt.lt, hs'])
        · have hACeq : alphaC = A0 :=
            halpha.trans (XInt.max_eq_left_of_le h1)
          refine Or.inr ⟨?_, h2⟩
          rw [← hACeq]; exact hs
      · rw [if_neg hA, if_pos hF,
          XInt.max_eq_left_of_le hvAle, if_neg (XInt.not_le_of_lt hlt)]
        refine ih b _ _ _ _ alphaC
          (XInt.max_between halpha (XInt.le_refl vA) hvAle) hlt ?_
        rcases hrel with rfl | ⟨h1, h2⟩
        · rcases XInt.max_eq_or A0 vA with hmax | hmax
          · have hACeq : alphaC = A0 := halpha.trans hmax
            refine Or.inr ⟨XInt.le_of_max_eq_left hmax, ?_⟩
            rw [← hACeq]; exact hsle
          · have hvAeq : alphaC = vA := halpha.trans hmax
            have hsle' : XInt.le (recF b1) vA = true := by
              rw [← hvAeq]; exact hsle
            exact absurd hF (by simp [XInt.lt, hsle'])
        · have hACeq : alphaC = A0 :=
            halpha.trans (XInt.max_eq_left_of_le h1)
          refine Or.inr ⟨h1, ?_⟩
          rw [← hACeq]; exact hsle
      · rw [if_neg hA, if_neg hF,
          XInt.max_eq_left_of_le hvAle, if_neg (XInt.not_le_of_lt hlt)]
        exact ih b _ _ _ _ alphaC
          (XInt.max_between halpha (XInt.le_refl vA) hvAle) hlt hrel
    · have hgt : XInt.lt alphaC (recF b1) = true := by
        simp [XInt.lt, hsle]
      by_cases hsb : XInt.lt (recF b1) beta = true
      · -- regime (ii): the child's unpruned value is strictly inside the window
        have hs : (recAB b1 alphaC beta).1 = recF b1 := hI3 hgt hsb
        have hupA : XInt.lt vA (recAB b1 alphaC beta).1 = true := by
          rw [hs]; exact XInt.lt_of_le_of_lt hvAle hgt
        have hupF : XInt.lt vF (recF b1) = true :=
          XInt.lt_of_le_of_lt hvFle hgt
        rw [if_pos hupA, if_pos hupF, hs]
        have hmaxlt : XInt.lt (XInt.max alphaC (recF b1)) beta = true :=
          XInt.max_lt hlt hsb
        rw [if_neg (XInt.not_le_of_lt hmaxlt)]
        refine ih b _ _ _ _ (XInt.max alphaC (recF b1)) ?_ hmaxlt (Or.inl rfl)
        rw [halpha]
        exact XInt.max_assoc_self (XInt.le_of_lt
          (XInt.lt_of_le_of_lt hvAle hgt))
      · -- regime (iii): the child's unpruned value fails high; prune
        have hbetasF : XInt.le beta (recF b1) = true := by
          rcases XInt.le_total beta (recF b1) with h' | h'
          · exact h'
          · rcases XInt.le_total (recF b1) beta with h'' | h''
            · cases hx : XInt.lt (recF b1) beta
              · rw [XInt.not_lt_iff_le] at hx
                exact hx
              · exact absurd hx (by simp [hsb])
            · exact h''
        have hbs : XInt.le beta (recAB b1 alphaC beta).1 = true := hI2 hbetasF
        have hupA : XInt.lt vA (recAB b1 alphaC beta).1 = true :=
          XInt.lt_of_le_of_lt hvAle (XInt.lt_of_lt_of_le hlt hbs)
        have hupF : XInt.lt vF (recF b1) = true :=
          XInt.lt_of_le_of_lt hvFle (XInt.lt_of_lt_of_le hlt hbetasF)
        rw [if_pos hupA, if_pos hupF,
          if_pos (XInt.le_trans hbs (XInt.le_max_right alphaC _))]
        have hbetaG : XInt.le beta
            (fullMaxLoop recF b rest (some c) (recF b1)).2 = true :=
          XInt.le_trans hbetasF (fullMaxLoop_mono recF b rest (some c) (recF b1))
        refine ⟨fun hG => ?_, fun _ => hbs, fun _ hGb => ?_⟩
        · exact absurd (XInt.le_trans (XInt.le_trans hbetaG hG) hA0le)
            (XInt.not_le_of_lt hlt)
        · exact absurd hbetaG (XInt.not_le_of_lt hGb)

/-! ### Alpha-beta window bounds, min side (mirror of `maxLoop_bounds`) -/

theorem minLoop_bounds
    (recAB : Board → XInt → XInt → XInt × Board) (recF : Board → XInt)
    (alpha B0 : XInt)
    (hIH : ∀ b' beta', XInt.lt alpha beta' = true →
      (XInt.le (recF b') alpha = true →
        XInt.le (recAB b' alpha beta').1 alpha = true) ∧
      (XInt.le beta' (recF b') = true →
        XInt.le beta' (recAB b' alpha beta').1 = true) ∧
      (XInt.lt alpha (recF b') = true → XInt.lt (recF b') beta' = true →
        (recAB b' alpha beta').1 = recF b')) :
    ∀ (cols : List ℕ) (b : Board) (colA colF : Option ℕ) (vA vF betaC : XInt),
      betaC = XInt.min B0 vA →
      XInt.lt alpha betaC = true →
      (vA = vF ∨ (XInt.le B0 vA = true ∧ XInt.le B0 vF = true)) →
      (XInt.le (fullMinLoop recF b cols colF vF).2 alpha = true →
        XInt.le (minLoop recAB cols b colA vA alpha betaC).1.2 alpha = true) ∧
      (XInt.le B0 (fullMinLoop recF b cols colF vF).2 = true →
        XInt.le B0 (minLoop recAB cols b colA vA alpha betaC).1.2 = true) ∧
      (XInt.lt alpha (fullMinLoop recF b cols colF vF).2 = true →
        XInt.lt (fullMinLoop recF b cols colF vF).2 B0 = true →
        (minLoop recAB cols b colA vA alpha betaC).1.2 =
          (fullMinLoop recF b cols colF vF).2) := by
  intro cols
  induction cols with
  | nil =>
    intro b colA colF vA vF betaC hbetaC hlt hrel
    simp only [minLoop, fullMinLoop]
    have hB0ge : XInt.le betaC B0 = true := by
      rw [hbetaC]; exact XInt.min_le_left B0 vA
    rcases hrel with rfl | ⟨h1, h2⟩
    · exact ⟨fun h => h, fun h => h, fun _ _ => rfl⟩
    · refine ⟨fun ha => ?_, fun _ => h1, fun _ hg => ?_⟩
      · exact absurd (XInt.le_trans hB0ge (XInt.le_trans h2 ha))
          (XInt.not_le_of_lt hlt)
      · have hc := XInt.lt_of_lt_of_le hg h2
        rw [XInt.lt_irrefl] at hc
        cases hc
  | cons c rest ih =>
    intro b colA colF vA vF betaC hbetaC hlt hrel
    have hvAge : XInt.le betaC vA = true := by
      rw [hbetaC]; exact XInt.min_le_right B0 vA
    have hB0ge : XInt.le betaC B0 = true := by
      rw [hbetaC]; exact XInt.min_le_left B0 vA
    have hvFge : XInt.le betaC vF = true := by
      rcases hrel with rfl | ⟨h1, h2⟩
      · exact hvAge
      · exact XInt.le_trans hB0ge h2
    simp only [minLoop, fullMinLoop]
    set b1 := (match get_next_open_row b c with
      | some r => setCell b r c PLAYER_PIECE
      | none => b) with hb1
    obtain ⟨hI1, hI2, hI3⟩ := hIH b1 betaC hlt
    by_cases hsge : XInt.le betaC (recF b1) = true
    · -- regime (i): the child's unpruned value fails high w.r.t. betaC
      have hs : XInt.le betaC (recAB b1 alpha betaC).1 = true := hI2 hsge
      by_cases hA : XInt.lt (recAB b1 alpha betaC).1 vA = true <;>
        by_cases hF : XInt.lt (recF b1) vF = true
      · rw [if_pos hA, if_pos hF,
          XInt.min_eq_left_of_le hs, if_neg (XInt.not_le_of_lt hlt)]
        refine ih b _ _ _ _ betaC
          (XInt.min_between hbetaC (XInt.le_of_lt hA) hs) hlt ?_
        rcases hrel with rfl | ⟨h1, h2⟩
        · rcases XInt.min_eq_or B0 vA with hmin | hmin
          · have hBCeq : betaC = B0 := hbetaC.trans hmin
            refine Or.inr ⟨?_, ?_⟩
            · rw [← hBCeq]; exact hs
            · rw [← hBCeq]; exact hsge
          · have hvAeq : betaC = vA := hbetaC.trans hmin
            have hsge' : XInt.le vA (recF b1) = true := by
              rw [← hvAeq]; exact hsge
            exact absurd hF (by simp [XInt.lt, hsge'])
        · have hBCeq : betaC = B0 :=
            hbetaC.trans (XInt.min_eq_left_of_le h1)
          refine Or.inr ⟨?_, ?_⟩
          · rw [← hBCeq]; exact hs
          · rw [← hBCeq]; exact hsge
      · rw [if_pos hA, if_neg hF,
          XInt.min_eq_left_of_le hs, if_neg (XInt.not_le_of_lt hlt)]
        refine ih b _ _ _ _ betaC
          (XInt.min_between hbetaC (XInt.le_of_lt hA) hs) hlt ?_
        rcases hrel with rfl | ⟨h1, h2⟩
        · rcases XInt.min_eq_or B0 vA with hmin | hmin
          · have hBCeq : betaC = B0 := hbetaC.trans hmin
            refine Or.inr ⟨?_, XInt.le_of_min_eq_left hmin⟩
            rw [← hBCeq]; exact hs
          · have hvAeq : betaC = vA := hbetaC.trans hmin
            have hs' : XInt.le vA (recAB b1 alpha betaC).1 = true := by
              rw [← hvAeq]; exact hs
            exact absurd hA (by simp [XInt.lt, hs'])
        · have hBCeq : betaC = B0 :=
            hbetaC.trans (XInt.min_eq_left_of_le h1)
          refine Or.inr ⟨?_, h2⟩
          rw [← hBCeq]; exact hs
      · rw [if_neg hA, if_pos hF,
          XInt.min_eq_left_of_le hvAge, if_neg (XInt.not_le_of_lt hlt)]
        refine ih b _ _ _ _ betaC
          (XInt.min_between hbetaC (XInt.le_refl vA) hvAge) hlt ?_
        rcases hrel with rfl | ⟨h1, h2⟩
        · rcases XInt.min_eq_or B0 vA with hmin | hmin
          · have hBCeq : betaC = B0 := hbetaC.trans hmin
            refine Or.inr ⟨XInt.le_of_min_eq_left hmin, ?_⟩
            rw [← hBCeq]; exact hsge
          · have hvAeq : betaC = vA := hbetaC.trans hmin
            have hsge' : XInt.le vA (recF b1) = true := by
              rw [← hvAeq]; exact hsge
            exact absurd hF (by simp [XInt.lt, hsge'])
        · have hBCeq : betaC = B0 :=
            hbetaC.trans (XInt.min_eq_left_of_le h1)
          refine Or.inr ⟨h1, ?_⟩
          rw [← hBCeq]; exact hsge
      · rw [if_neg hA, if_neg hF,
          XInt.min_eq_left_of_le hvAge, if_neg (XInt.not_le_of_lt hlt)]
        exact ih b _ _ _ _ betaC
          (XInt.min_between hbetaC (XInt.le_refl vA) hvAge) hlt hrel
    · have hgt : XInt.lt (recF b1) betaC = true := by
        simp [XInt.lt, hsge]
      by_cases hsb : XInt.lt alpha (recF b1) = true
      · -- regime (ii): the child's unpruned value is strictly inside
        have hs : (recAB b1 alpha betaC).1 = recF b1 := hI3 hsb hgt
        have hupA : XInt.lt (recAB b1 alpha betaC).1 vA = true := by
          rw [hs]; exact XInt.lt_of_lt_of_le hgt hvAge
        have hupF : XInt.lt (recF b1) vF = true :=
          XInt.lt_of_lt_of_le hgt hvFge
        rw [if_pos hupA, if_pos hupF, hs]
        have hminlt : XInt.lt alpha (XInt.min betaC (recF b1)) = true :=
          XInt.lt_min hlt hsb
        rw [if_neg (XInt.not_le_of_lt hminlt)]
        refine ih b _ _ _ _ (XInt.min betaC (recF b1)) ?_ hminlt (Or.inl rfl)
        rw [hbetaC]
        exact XInt.min_assoc_self (XInt.le_of_lt
          (XInt.lt_of_lt_of_le hgt hvAge))
      · -- regime (iii): the child's unpruned value fails low; prune
        have hsalpha : XInt.le (recF b1) alpha = true := by
          cases hx : XInt.lt alpha (recF b1)
          · rw [XInt.not_lt_iff_le] at hx
            exact hx
          · exact absurd hx (by simp [hsb])
        have hs : XInt.le (recAB b1 alpha betaC).1 alpha = true := hI1 hsalpha
        have hupA : XInt.lt (recAB b1 alpha betaC).1 vA = true :=
          XInt.lt_of_le_of_lt hs (XInt.lt_of_lt_of_le hlt hvAge)
        have hupF : XInt.lt (recF b1) vF = true :=
          XInt.lt_of_le_of_lt hsalpha (XInt.lt_of_lt_of_le hlt hvFge)
        rw [if_pos hupA, if_pos hupF,
          if_pos (XInt.le_trans (XInt.min_le_right betaC _) hs)]
        have halphaG : XInt.le
            (fullMinLoop recF b rest (some c) (recF b1)).2 alpha = true :=
          XInt.le_trans (fullMinLoop_mono recF b rest (some c) (recF b1)) hsalpha
        refine ⟨fun _ => hs, fun hG => ?_, fun haG _ => ?_⟩
        · exact absurd (XInt.le_trans hB0ge (XInt.le_trans hG halphaG))
            (XInt.not_le_of_lt hlt)
        · exact absurd halphaG (XInt.not_le_of_lt haG)

/-! ### Leaf and terminal agreement of the two searches -/

theorem minimaxH_zero_eq (h : Board → ℤ) (ch : List ℕ → ℕ) (b : Board)
    (alpha beta : XInt) (mp : Bool) :
    (minimaxH h ch 0 b alpha beta mp).1 = fullMinimaxH h ch 0 b mp := by
  simp only [minimaxH, fullMinimaxH]
  split
  · split
    · rfl
    · split <;> rfl
  · rfl

theorem fullMinimaxH_terminal (h : Board → ℤ) (ch : List ℕ → ℕ) (d : ℕ)
    (b : Board) (mp : Bool) (hterm : is_terminal_node b = true) :
    fullMinimaxH h ch d b mp =
      (none, if winning_move b AI_PIECE then XInt.fin 100000000000000
        else if winning_move b PLAYER_PIECE then XInt.fin (-10000000000000)
        else XInt.fin 0) := by
  cases d <;> simp only [fullMinimaxH] <;> rw [if_pos hterm] <;>
    by_cases h2 : winning_move b AI_PIECE = true <;>
    by_cases h1 : winning_move b PLAYER_PIECE = true <;>
    simp [h2, h1]

/-! ### Node-level alpha-beta bounds, by induction on depth -/

theorem minimaxH_bounds (h : Board → ℤ) (ch : List ℕ → ℕ) :
    ∀ (d : ℕ) (b : Board) (alpha beta : XInt) (mp : Bool),
      XInt.lt alpha beta = true →
      (XInt.le (fullMinimaxH h ch d b mp).2 alpha = true →
        XInt.le (minimaxH h ch d b alpha beta mp).1.2 alpha = true) ∧
      (XInt.le beta (fullMinimaxH h ch d b mp).2 = true →
        XInt.le beta (minimaxH h ch d b alpha beta mp).1.2 = true) ∧
      (XInt.lt alpha (fullMinimaxH h ch d b mp).2 = true →
        XInt.lt (fullMinimaxH h ch d b mp).2 beta = true →
        (minimaxH h ch d b alpha beta mp).1.2 =
          (fullMinimaxH h ch d b mp).2) := by
  intro d
  induction d with
  | zero =>
    intro b alpha beta mp _
    have heq : (minimaxH h ch 0 b alpha beta mp).1.2 =
        (fullMinimaxH h ch 0 b mp).2 :=
      congrArg Prod.snd (minimaxH_zero_eq h ch b alpha beta mp)
    exact ⟨fun x => by rw [heq]; exact x, fun x => by rw [heq]; exact x,
      fun _ _ => heq⟩
  | succ d ih =>
    intro b alpha beta mp hlt
    by_cases hterm : is_terminal_node b = true
    · have heq : (minimaxH h ch (d + 1) b alpha beta mp).1.2 =
          (fullMinimaxH h ch (d + 1) b mp).2 := by
        rw [minimaxH_terminal h ch (d + 1) b alpha beta mp hterm,
          fullMinimaxH_terminal h ch (d + 1) b mp hterm]
      exact ⟨fun x => by rw [heq]; exact x, fun x => by rw [heq]; exact x,
        fun _ _ => heq⟩
    · simp only [minimaxH, fullMinimaxH]
      rw [if_neg hterm, if_neg hterm]
      cases mp
      · rw [if_neg Bool.false_ne_true, if_neg Bool.false_ne_true]
        exact minLoop_bounds _ _ alpha beta
          (fun b' beta' hlt' => ih b' alpha beta' true hlt')
          (get_valid_locations b) b _ _ XInt.posInf XInt.posInf beta
          (XInt.min_posInf_right beta).symm hlt (Or.inl rfl)
      · rw [if_pos rfl, if_pos rfl]
        exact maxLoop_bounds _ _ alpha beta
          (fun b' alpha' hlt' => ih b' alpha' beta false hlt')
          (get_valid_locations b) b _ _ XInt.negInf XInt.negInf alpha
          (XInt.max_negInf_right alpha).symm hlt (Or.inl rfl)

/-! ### At the root window (−∞, +∞) the pruned loop is exact -/

theorem maxLoop_exact
    (recAB : Board → XInt → XInt → XInt × Board) (recF : Board → XInt)
    (hIH : ∀ b' alpha', XInt.lt alpha' XInt.posInf = true →
      (XInt.le (recF b') alpha' = true →
        XInt.le (recAB b' alpha' XInt.posInf).1 alpha' = true) ∧
      (XInt.le XInt.posInf (recF b') = true →
        XInt.le XInt.posInf (recAB b' alpha' XInt.posInf).1 = true) ∧
      (XInt.lt alpha' (recF b') = true →
        XInt.lt (recF b') XInt.posInf = true →
        (recAB b' alpha' XInt.posInf).1 = recF b'))
    (hFfin : ∀ b', XInt.IsFin (recF b')) :
    ∀ (cols : List ℕ) (b : Board) (col : Option ℕ) (v : XInt),
      (XInt.IsFin v ∨ v = XInt.negInf) →
      (maxLoop recAB cols b col v v XInt.posInf).1 =
        fullMaxLoop recF b cols col v := by
  intro cols
  induction cols with
  | nil => intro b col v _; rfl
  | cons c rest ih =>
    intro b col v hv
    simp only [maxLoop, fullMaxLoop]
    set b1 := (match get_next_open_row b c with
      | some r => setCell b r c AI_PIECE
      | none => b) with hb1
    have hvlt : XInt.lt v XInt.posInf = true := by
      rcases hv with hv | rfl
      · exact XInt.lt_posInf_of_isFin hv
      · exact XInt.lt_negInf_posInf
    obtain ⟨hI1, hI2, hI3⟩ := hIH b1 v hvlt
    by_cases hsle : XInt.le (recF b1) v = true
    · have hs : XInt.le (recAB b1 v XInt.posInf).1 v = true := hI1 hsle
      have hnA : ¬ XInt.lt v (recAB b1 v XInt.posInf).1 = true := by
        simp [XInt.lt, hs]
      have hnF : ¬ XInt.lt v (recF b1) = true := by
        simp [XInt.lt, hsle]
      rw [if_neg hnA, if_neg hnF, XInt.max_self,
        if_neg (XInt.not_le_of_lt hvlt)]
      exact ih b col v hv
    · have hgt : XInt.lt v (recF b1) = true := by simp [XInt.lt, hsle]
      have hsb : XInt.lt (recF b1) XInt.posInf = true :=
        XInt.lt_posInf_of_isFin (hFfin b1)
      have hs : (recAB b1 v XInt.posInf).1 = recF b1 := hI3 hgt hsb
      have hupA : XInt.lt v (recAB b1 v XInt.posInf).1 = true := by
        rw [hs]; exact hgt
      rw [if_pos hupA, if_pos hgt, hs,
        XInt.max_eq_right_of_le (XInt.le_of_lt hgt),
        if_neg (XInt.not_le_of_lt hsb)]
      exact ih b (some c) (recF b1) (Or.inl (hFfin b1))

theorem minLoop_exact
    (recAB : Board → XInt → XInt → XInt × Board) (recF : Board → XInt)
    (hIH : ∀ b' beta', XInt.lt XInt.negInf beta' = true →
      (XInt.le (recF b') XInt.negInf = true →
        XInt.le (recAB b' XInt.negInf beta').1 XInt.negInf = true) ∧
      (XInt.le beta' (recF b') = true →
        XInt.le beta' (recAB b' XInt.negInf beta').1 = true) ∧
      (XInt.lt XInt.negInf (recF b') = true →
        XInt.lt (recF b') beta' = true →
        (recAB b' XInt.negInf beta').1 = recF b'))
    (hFfin : ∀ b', XInt.IsFin (recF b')) :
    ∀ (cols : List ℕ) (b : Board) (col : Option ℕ) (v : XInt),
      (XInt.IsFin v ∨ v = XInt.posInf) →
      (minLoop recAB cols b col v XInt.negInf v).1 =
        fullMinLoop recF b cols col v := by
  intro cols
  induction cols with
  | nil => intro b col v _; rfl
  | cons c rest ih =>
    intro b col v hv
    simp only [minLoop, fullMinLoop]
    set b1 := (match get_next_open_row b c with
      | some r => setCell b r c PLAYER_PIECE
      | none => b) with hb1
    have hvlt : XInt.lt XInt.negInf v = true := by
      rcases hv with hv | rfl
      · exact XInt.lt_negInf_of_isFin hv
      · exact XInt.lt_negInf_posInf
    obtain ⟨hI1, hI2, hI3⟩ := hIH b1 v hvlt
    by_cases hsge : XInt.le v (recF b1) = true
    · have hs : XInt.le v (recAB b1 XInt.negInf v).1 = true := hI2 hsge
      have hnA : ¬ XInt.lt (recAB b1 XInt.negInf v).1 v = true := by
        simp [XInt.lt, hs]
      have hnF : ¬ XInt.lt (recF b1) v = true := by
        simp [XInt.lt, hsge]
      rw [if_neg hnA, if_neg hnF, XInt.min_self,
        if_neg (XInt.not_le_of_lt hvlt)]
      exact ih b col v hv
    · have hgt : XInt.lt (recF b1) v = true := by simp [XInt.lt, hsge]
      have hsb : XInt.lt XInt.negInf (recF b1) = true :=
        XInt.lt_negInf_of_isFin (hFfin b1)
      have hs : (recAB b1 XInt.negInf v).1 = recF b1 := hI3 hsb hgt
      have hupA : XInt.lt (recAB b1 XInt.negInf v).1 v = true := by
        rw [hs]; exact hgt
      rw [if_pos hupA, if_pos hgt, hs,
        XInt.min_eq_right_of_le (XInt.le_of_lt hgt),
        if_neg (XInt.not_le_of_lt hsb)]
      exact ih b (some c) (recF b1) (Or.inl (hFfin b1))

/-! ### The full refinement: pruned search ≡ unpruned search -/

theorem minimaxH_full_eq (h : Board → ℤ) (ch : List ℕ → ℕ) :
    ∀ (d : ℕ) (b : Board) (mp : Bool),
      (minimaxH h ch d b XInt.negInf XInt.posInf mp).1 =
        fullMinimaxH h ch d b mp := by
  intro d b mp
  cases d with
  | zero => exact minimaxH_zero_eq h ch b _ _ mp
  | succ d =>
    by_cases hterm : is_terminal_node b = true
    · rw [minimaxH_terminal h ch _ b _ _ mp hterm,
        fullMinimaxH_terminal h ch _ b mp hterm]
    · simp only [minimaxH, fullMinimaxH]
      rw [if_neg hterm, if_neg hterm]
      cases mp
      · rw [if_neg Bool.false_ne_true, if_neg Bool.false_ne_true]
        exact minLoop_exact _ _
          (fun b' beta' hlt' =>
            minimaxH_bounds h ch d b' XInt.negInf beta' true hlt')
          (fun b' => fullMinimaxH_fin h ch d b' true)
          (get_valid_locations b) b _ XInt.posInf (Or.inr rfl)
      · rw [if_pos rfl, if_pos rfl]
        exact maxLoop_exact _ _
          (fun b' alpha' hlt' =>
            minimaxH_bounds h ch d b' alpha' XInt.posInf false hlt')
          (fun b' => fullMinimaxH_fin h ch d b' false)
          (get_valid_locations b) b _ XInt.negInf (Or.inr rfl)

/-! ## Claim theorems -/

/-- C1: for every grid, depth and root player flag, the alpha-beta pruning
search `minimax` with initial window (−∞, +∞) returns the same column and
the same score as the unpruned full minimax (the same recursion with no
alpha/beta cutoffs) over the same grid, depth, and tie-break rule `ch`. -/
theorem claim_C1_alpha_beta_equivalence (ch : List ℕ → ℕ) (d : ℕ) (b : Board)
    (mp : Bool) :
    (minimax ch d b XInt.negInf XInt.posInf mp).1 = fullMinimax ch d b mp :=
  minimaxH_full_eq (fun b' => score_position b' AI_PIECE) ch d b mp

/-- C2: for every grid state and every depth, after a call to
`get_best_move(depth)` returns, every cell of the grid equals its value
before the call — the speculative mutate/undo search leaves no residue on
the board. -/
theorem claim_C2_mutate_undo_purity (ch : List ℕ → ℕ) (b : Board) (depth : ℕ)
    (r c : ℕ) : (get_best_move ch b depth).2 r c = b r c := by
  have hb := minimaxH_board (fun b' => score_position b' AI_PIECE) ch depth b
    XInt.negInf XInt.posInf true
  simpa [get_best_move, minimax] using congrFun (congrFun hb r) c

/-- C3, counterexample to the claim as stated: on a terminal grid where
BOTH tokens have a four-in-a-row (reachable via `force_place_token`), the
human token has a four-in-a-row but `minimax` does NOT return the
−∞-class sentinel (it returns the +∞-class sentinel, because the source
checks the AI win first). -/
theorem claim_C3_counterexample :
    is_terminal_node bBoth = true ∧
    winning_move bBoth PLAYER_PIECE = true ∧
    (minimax chZero 0 bBoth XInt.negInf XInt.posInf true).1.2 ≠
      XInt.fin (-10000000000000) := by
  refine ⟨by decide, by decide, by decide⟩

/-- C3 (amended): on every terminal grid, `minimax` at any depth returns
the column `none` and: the +∞-class sentinel if the AI token has a
four-in-a-row; the −∞-class sentinel if the human token has one *and the
AI token does not*; and 0 if neither token has a win; the heuristic is
never evaluated — stated by quantifying over an arbitrary heuristic `h`
(`minimaxH h` is `minimax` with `score_position(AI_PIECE)` replaced by
`h`), whose value the result never depends on. -/
theorem claim_C3_terminal_sentinels (h : Board → ℤ) (ch : List ℕ → ℕ) (d : ℕ)
    (b : Board) (alpha beta : XInt) (mp : Bool)
    (hterm : is_terminal_node b = true) :
    (minimaxH h ch d b alpha beta mp).1.1 = none ∧
    (winning_move b AI_PIECE = true →
      (minimaxH h ch d b alpha beta mp).1.2 = XInt.fin 100000000000000) ∧
    (winning_move b AI_PIECE = false → winning_move b PLAYER_PIECE = true →
      (minimaxH h ch d b alpha beta mp).1.2 = XInt.fin (-10000000000000)) ∧
    (winning_move b AI_PIECE = false → winning_move b PLAYER_PIECE = false →
      (minimaxH h ch d b alpha beta mp).1.2 = XInt.fin 0) ∧
    (minimax ch d b alpha beta mp).1 = (minimaxH h ch d b alpha beta mp).1 := by
  rw [minimaxH_terminal h ch d b alpha beta mp hterm]
  refine ⟨rfl, fun h2 => by simp [h2], fun h2 h1 => by simp [h2, h1],
    fun h2 h1 => by simp [h2, h1], ?_⟩
  rw [minimax, minimaxH_terminal _ ch d b alpha beta mp hterm]

/-- C3 witness: concrete terminal grid with an AI four-in-a-row; at depth 3
and an arbitrary heuristic the +∞-class sentinel comes back. -/
theorem claim_C3_terminal_sentinels_witness :
    is_terminal_node bAIWin = true ∧ winning_move bAIWin AI_PIECE = true ∧
    (minimaxH (fun _ => (37 : ℤ)) chZero 3 bAIWin XInt.negInf XInt.posInf
      true).1.2 = XInt.fin 100000000000000 :=
  ⟨by decide, by decide,
    (claim_C3_terminal_sentinels (fun _ => (37 : ℤ)) chZero 3 bAIWin
      XInt.negInf XInt.posInf true (by decide)).2.1 (by decide)⟩

/-- C5: starting from the empty grid, after any sequence of rule-driven
drops (each into a column where `is_valid_location` holds, at the row
returned by `get_next_open_row`), every non-empty cell `(r, c)` with
`r < R−1` has a non-empty cell at `(r+1, c)`: no floating tokens. -/
theorem claim_C5_gravity_invariant (b : Board) (hb : Reach b) :
    ∀ r c, r < ROW_COUNT - 1 → c < COLUMN_COUNT →
      b r c ≠ EMPTY → b (r + 1) c ≠ EMPTY := by
  induction hb with
  | create =>
    intro r c _ _ hne
    exact absurd rfl hne
  | drop b col piece row hcol hv hp hrow hb ih =>
    intro r c hr hc hne
    obtain ⟨hempty, hrle, habove⟩ := nextOpenFrom_spec b col _ row hrow
    have hr5 : r < 5 := by simpa [ROW_COUNT] using hr
    have hrow5 : row ≤ 5 := by simpa [ROW_COUNT] using hrle
    have hpz : piece ≠ 0 := by rcases hp with rfl | rfl <;> decide
    by_cases hcc : c = col
    · subst hcc
      by_cases hrr : r = row
      · subst hrr
        have hbelow : b (r + 1) c ≠ 0 :=
          habove (r + 1) (by omega) (by simp [ROW_COUNT]; omega)
        rw [drop_piece, setCell_other b r c piece (r + 1) c (by omega)]
        exact hbelow
      · have hbrc : b r c ≠ 0 := by
          rw [drop_piece, setCell_other b row c piece r c (by tauto)] at hne
          exact hne
        by_cases hr1 : r + 1 = row
        · have hcell : drop_piece b row c piece (r + 1) c = piece := by
            rw [drop_piece, hr1, setCell_same]
          rw [hcell]
          exact hpz
        · have := ih r c hr hc hbrc
          rw [drop_piece, setCell_other b row c piece (r + 1) c (by tauto)]
          exact this
    · have hbrc : b r c ≠ 0 := by
        rw [drop_piece, setCell_other b row col piece r c (by tauto)] at hne
        exact hne
      have := ih r c hr hc hbrc
      rw [drop_piece, setCell_other b row col piece (r + 1) c (by tauto)]
      exact this

/-- C5 witness: after two rule-driven drops into column 3, the invariant
applied at `(4, 3)` yields a token at `(5, 3)`. -/
theorem claim_C5_gravity_invariant_witness : bTwoDrops 5 3 ≠ EMPTY :=
  claim_C5_gravity_invariant bTwoDrops
    (Reach.drop _ 3 AI_PIECE 4 (by decide) (by decide) (Or.inr rfl) (by decide)
      (Reach.drop _ 3 PLAYER_PIECE 5 (by decide) (by decide) (Or.inl rfl)
        (by decide) Reach.create))
    4 3 (by decide) (by decide) (by decide)

/-- C6: for every 4-cell window and every token, `evaluate_window` returns
exactly +100 for 4 of the token; +5 for 3 of the token and 1 Empty; +2 for
2 of the token and 2 Empty; −4 for 3 of the opponent token (`3 - piece`)
and 1 Empty; and 0 for every other configuration. -/
theorem claim_C6_window_scores (w : List ℕ) (piece : ℕ) (hlen : w.length = 4)
    (hp : piece = PLAYER_PIECE ∨ piece = AI_PIECE) :
    evaluate_window w piece =
      if w.count piece = 4 then 100
      else if w.count piece = 3 ∧ w.count EMPTY = 1 then 5
      else if w.count piece = 2 ∧ w.count EMPTY = 2 then 2
      else if w.count (3 - piece) = 3 ∧ w.count EMPTY = 1 then -4
      else 0 := by
  rcases hp with rfl | rfl
  · have hsum := count_three_le_length w 1 2 0 (by decide) (by decide) (by decide)
    rw [hlen] at hsum
    simp only [evaluate_window, PLAYER_PIECE, AI_PIECE, EMPTY,
      show (3 : ℕ) - 1 = 2 from rfl, if_pos rfl]
    split_ifs <;> omega
  · have hsum := count_three_le_length w 2 1 0 (by decide) (by decide) (by decide)
    rw [hlen] at hsum
    simp only [evaluate_window, PLAYER_PIECE, AI_PIECE, EMPTY,
      show (3 : ℕ) - 2 = 1 from rfl]
    rw [if_neg (by decide : ¬(2 : ℕ) = 1)]
    split_ifs <;> omega

/-- C6 witness: a window with three opponent tokens and one empty cell
scores −4 for the player token. -/
theorem claim_C6_window_scores_witness :
    evaluate_window [2, 2, 2, 0] 1 =
      if ([2, 2, 2, 0] : List ℕ).count 1 = 4 then 100
      else if ([2, 2, 2, 0] : List ℕ).count 1 = 3 ∧
        ([2, 2, 2, 0] : List ℕ).count EMPTY = 1 then 5
      else if ([2, 2, 2, 0] : List ℕ).count 1 = 2 ∧
        ([2, 2, 2, 0] : List ℕ).count EMPTY = 2 then 2
      else if ([2, 2, 2, 0] : List ℕ).count (3 - 1) = 3 ∧
        ([2, 2, 2, 0] : List ℕ).count EMPTY = 1 then -4
      else 0 :=
  claim_C6_window_scores [2, 2, 2, 0] 1 (by decide) (Or.inl rfl)

/-- C7: `score_position(token)` equals the count of that token in the
middle column times 3, plus the sum of `evaluate_window` over every
horizontal 4-cell window and every vertical 4-cell window; no diagonal
window contributes (the equation is exact). -/
theorem claim_C7_score_decomposition (b : Board) (piece : ℕ) :
    score_position b piece = scorePositionSpec b piece := by
  unfold score_position scorePositionSpec
  simp only [listSum_range, count_map_range]
  ring

/-- C8: out-of-range `(row, col)` makes `force_place_token` and
`remove_token` return a failure flag and leave every cell unchanged;
in-range coordinates make `force_place_token` write the token (regardless
of gravity or fullness, the grid being arbitrary), `remove_token` set the
cell to Empty, and both return success. -/
theorem claim_C8_bounds_safety (b : Board) (row col : ℤ) (piece : ℕ) :
    (¬(0 ≤ row ∧ row < (ROW_COUNT : ℤ) ∧ 0 ≤ col ∧ col < (COLUMN_COUNT : ℤ)) →
      (force_place_token b row col piece).1 = false ∧
      (∀ r c, (force_place_token b row col piece).2 r c = b r c) ∧
      (remove_token b row col).1 = false ∧
      (∀ r c, (remove_token b row col).2 r c = b r c)) ∧
    ((0 ≤ row ∧ row < (ROW_COUNT : ℤ) ∧ 0 ≤ col ∧ col < (COLUMN_COUNT : ℤ)) →
      (force_place_token b row col piece).1 = true ∧
      (force_place_token b row col piece).2 row.toNat col.toNat = piece ∧
      (remove_token b row col).1 = true ∧
      (remove_token b row col).2 row.toNat col.toNat = EMPTY) := by
  constructor
  · intro hout
    rw [force_place_token, remove_token, if_neg hout, if_neg hout]
    exact ⟨rfl, fun r c => rfl, rfl, fun r c => rfl⟩
  · intro hin
    rw [force_place_token, remove_token, if_pos hin, if_pos hin]
    exact ⟨rfl, setCell_same b _ _ piece, rfl, setCell_same b _ _ EMPTY⟩

/-- C8 witness: row −1 is rejected with no mutation; cell (0,0) of the
empty board (bypassing gravity) is written in-range. -/
theorem claim_C8_bounds_safety_witness :
    (force_place_token create_board (-1) 0 AI_PIECE).1 = false ∧
    (force_place_token create_board 0 0 AI_PIECE).2 0 0 = AI_PIECE :=
  ⟨((claim_C8_bounds_safety create_board (-1) 0 AI_PIECE).1 (by decide)).1,
    ((claim_C8_bounds_safety create_board 0 0 AI_PIECE).2 (by decide)).2.1⟩

/-- C9: two runs of `minimax` with initial window (−∞, +∞) on a
non-terminal grid at depth ≥ 1 that differ only in the outcome of the
random tie-break seed (modelled by the `ch` parameter fed to
`random.choice`) return the identical (column, score) pair. -/
theorem claim_C9_tiebreak_inconsequential (ch1 ch2 : List ℕ → ℕ) (b : Board)
    (d : ℕ) (mp : Bool) (_hterm : is_terminal_node b = false) (_hd : 1 ≤ d) :
    (minimax ch1 d b XInt.negInf XInt.posInf mp).1 =
      (minimax ch2 d b XInt.negInf XInt.posInf mp).1 := by
  rw [minimax, minimax, minimaxH_ch _ ch1 ch2]

/-- C9 witness: concrete non-terminal grid, depth 1, two different
tie-break functions. -/
theorem claim_C9_tiebreak_inconsequential_witness :
    is_terminal_node bMid = false ∧
    (minimax chFst 1 bMid XInt.negInf XInt.posInf true).1 =
      (minimax chZero 1 bMid XInt.negInf XInt.posInf true).1 :=
  ⟨by decide, claim_C9_tiebreak_inconsequential chFst chZero bMid 1 true
    (by decide) (by decide)⟩

/-- C10: `minimax` returns `none` as the chosen column exactly when
`depth = 0` or the grid is terminal; otherwise (any alpha, beta) the
returned column is an element of `get_valid_locations`, so
`get_best_move` on a playable position never selects a full or
out-of-range column. -/
theorem claim_C10_column_validity (ch : List ℕ → ℕ) (d : ℕ) (b : Board)
    (alpha beta : XInt) (mp : Bool) :
    ((minimax ch d b alpha beta mp).1.1 = none ↔
      d = 0 ∨ is_terminal_node b = true) ∧
    (1 ≤ d → is_terminal_node b = false →
      ∃ c ∈ get_valid_locations b,
        (minimax ch d b alpha beta mp).1.1 = some c) ∧
    (1 ≤ d → is_terminal_node b = false →
      ∃ c ∈ get_valid_locations b, (get_best_move ch b d).1 = some c) := by
  refine ⟨⟨?_, ?_⟩, ?_, ?_⟩
  · intro hnone
    by_contra hcon
    push_neg at hcon
    obtain ⟨hd0, hterm⟩ := hcon
    have hterm' : is_terminal_node b = false := by simpa using hterm
    obtain ⟨c, _, hc⟩ := minimaxH_col_mem _ ch d b alpha beta mp
      (Nat.one_le_iff_ne_zero.mpr hd0) hterm'
    rw [minimax] at hnone
    rw [hnone] at hc
    cases hc
  · exact fun hd => minimaxH_col_none _ ch d b alpha beta mp hd
  · exact fun h1 ht => minimaxH_col_mem _ ch d b alpha beta mp h1 ht
  · exact fun h1 ht => minimaxH_col_mem _ ch d b XInt.negInf XInt.posInf true h1 ht

/-- C4: for every grid — including gravity-violating grids produced by
`force_place_token` (the grid here is arbitrary) — and every token,
`winning_move` returns true iff there exist four consecutive cells holding
that token along a horizontal, vertical, or either diagonal line within
the 6×7 grid. -/
theorem claim_C4_winning_move_characterization (b : Board) (piece : ℕ) :
    winning_move b piece = true ↔
      (∃ r c, r < ROW_COUNT ∧ c + 3 < COLUMN_COUNT ∧
        b r c = piece ∧ b r (c+1) = piece ∧ b r (c+2) = piece ∧
        b r (c+3) = piece) ∨
      (∃ r c, r + 3 < ROW_COUNT ∧ c < COLUMN_COUNT ∧
        b r c = piece ∧ b (r+1) c = piece ∧ b (r+2) c = piece ∧
        b (r+3) c = piece) ∨
      (∃ r c, r + 3 < ROW_COUNT ∧ c + 3 < COLUMN_COUNT ∧
        b r c = piece ∧ b (r+1) (c+1) = piece ∧ b (r+2) (c+2) = piece ∧
        b (r+3) (c+3) = piece) ∨
      (∃ r c, r + 3 < ROW_COUNT ∧ c + 3 < COLUMN_COUNT ∧
        b (r+3) c = piece ∧ b (r+2) (c+1) = piece ∧ b (r+1) (c+2) = piece ∧
        b r (c+3) = piece) := by
  rw [winning_move]
  simp only [Bool.or_eq_true, List.any_eq_true, List.mem_range,
    Bool.and_eq_true, beq_iff_eq, List.mem_cons, List.not_mem_nil, or_false,
    ROW_COUNT, COLUMN_COUNT]
  constructor
  · rintro (((⟨c, hc, r, hr, h⟩ | ⟨c, hc, r, hr, h⟩) | ⟨c, hc, r, hr, h⟩) |
      ⟨c, hc, r, rfl | rfl | rfl, h⟩)
    · exact Or.inl ⟨r, c, by omega, by omega, h.1.1.1, h.1.1.2, h.1.2, h.2⟩
    · exact Or.inr (Or.inl ⟨r, c, by omega, by omega,
        h.1.1.1, h.1.1.2, h.1.2, h.2⟩)
    · exact Or.inr (Or.inr (Or.inl ⟨r, c, by omega, by omega,
        h.1.1.1, h.1.1.2, h.1.2, h.2⟩))
    · exact Or.inr (Or.inr (Or.inr
        ⟨0, c, by omega, by omega, h.1.1.1, h.1.1.2, h.1.2, h.2⟩))
    · exact Or.inr (Or.inr (Or.inr
        ⟨1, c, by omega, by omega, h.1.1.1, h.1.1.2, h.1.2, h.2⟩))
    · exact Or.inr (Or.inr (Or.inr
        ⟨2, c, by omega, by omega, h.1.1.1, h.1.1.2, h.1.2, h.2⟩))
  · rintro (⟨r, c, hr, hc, h1, h2, h3, h4⟩ | ⟨r, c, hr, hc, h1, h2, h3, h4⟩ |
      ⟨r, c, hr, hc, h1, h2, h3, h4⟩ | ⟨r, c, hr, hc, h1, h2, h3, h4⟩)
    · exact Or.inl (Or.inl (Or.inl ⟨c, by omega, r, by omega,
        ⟨⟨⟨h1, h2⟩, h3⟩, h4⟩⟩))
    · exact Or.inl (Or.inl (Or.inr ⟨c, by omega, r, by omega,
        ⟨⟨⟨h1, h2⟩, h3⟩, h4⟩⟩))
    · exact Or.inl (Or.inr ⟨c, by omega, r, by omega,
        ⟨⟨⟨h1, h2⟩, h3⟩, h4⟩⟩)
    · refine Or.inr ⟨c, by omega, r + 3, by omega, ⟨⟨⟨h1, ?_⟩, ?_⟩, ?_⟩⟩
      · simpa using h2
      · simpa using h3
      · simpa using h4

/-- C10 witness: on a concrete playable position at depth 1 the returned
column is a valid location. -/
theorem claim_C10_column_validity_witness :
    ∃ c ∈ get_valid_locations bMid,
      (minimax chFst 1 bMid XInt.negInf XInt.posInf true).1.1 = some c :=
  (claim_C10_column_validity chFst 1 bMid XInt.negInf XInt.posInf true).2.1
    (by decide) (by decide)

end C4
